import Mathlib

/-!
Verification of the encoder-output cache manager
(`vllm/v1/core/encoder_cache_manager_backup.py`, second — effective — class
definition with content-key sharing, reference counting and ordered
eviction; and `vllm/v1/core/encoder_cache_manager.py`, the primary module).

Python dictionaries are embedded as association lists preserving insertion
order (`OrderedDict` order); Python sets are embedded as duplicate-free
lists; Python `int` is embedded as `Int` where values can go negative
(reference counts, token accounting) and as `Nat` where the source only
ever produces non-negative values (costs, identifiers).  Content keys
(`mm_hash`), request ids and input ids are opaque comparable values,
embedded as `Nat`.
-/

namespace EncoderCache

/-- Read-only view of the Request collaborator: a stable id, a map from
input id to content key, and the per-input encoder token cost. -/
structure Request where
  request_id : Nat
  mm_hash : Nat → Nat
  num_encoder_tokens : Nat → Nat

/-- `CacheEntry` of the effective (second) class: cost in tokens and the
`in_use` reference count. -/
structure CacheEntry where
  num_tokens : Nat
  in_use : Int
deriving DecidableEq, Repr

/-- First value bound to a key in an association list (dict lookup). -/
def lookupA {α : Type} (k : Nat) : List (Nat × α) → Option α
  | [] => none
  | p :: rest => if p.1 = k then some p.2 else lookupA k rest

/-- Remove every binding of a key (dict `pop` on duplicate-free lists). -/
def eraseKey {α : Type} (k : Nat) : List (Nat × α) → List (Nat × α)
  | [] => []
  | p :: rest => if p.1 = k then eraseKey k rest else p :: eraseKey k rest

/-- Rebind a key in place, keeping its position (dict item mutation). -/
def updateVal {α : Type} (k : Nat) (v : α) (l : List (Nat × α)) : List (Nat × α) :=
  l.map (fun p => if p.1 = k then (k, v) else p)

/-- `OrderedDict.move_to_end(k)`: move the binding of `k` to the back. -/
def moveToEnd {α : Type} (k : Nat) (l : List (Nat × α)) : List (Nat × α) :=
  match lookupA k l with
  | none => l
  | some v => eraseKey k l ++ [(k, v)]

/-- `OrderedDict.move_to_end(k, last=False)`: move the binding of `k` to
the front. -/
def moveToFront {α : Type} (k : Nat) (l : List (Nat × α)) : List (Nat × α) :=
  match lookupA k l with
  | none => l
  | some v => (k, v) :: eraseKey k l

/-- Python `set.add` on a duplicate-free list. -/
def setAdd (x : Nat) (s : List Nat) : List Nat :=
  if x ∈ s then s else s ++ [x]

/-- Python `set.discard` on a duplicate-free list. -/
def setDiscard (x : Nat) (s : List Nat) : List Nat :=
  s.filter (fun y => y ≠ x)

/-- `d.setdefault(k, set()).add(x)` on a dict of sets. -/
def dictSetAdd (k x : Nat) (d : List (Nat × List Nat)) : List (Nat × List Nat) :=
  match lookupA k d with
  | none => d ++ [(k, [x])]
  | some s => updateVal k (setAdd x s) d

/-- The cache proper: an insertion-ordered map from content key to entry. -/
abbrev Cache := List (Nat × CacheEntry)

/-- State of the effective `EncoderCacheManager` (second class of the
backup module). -/
structure ECM where
  cache_size : Nat
  num_used_tokens : Int
  cache : Cache
  request_mm_hashes : List (Nat × List Nat)
  mm_hash_to_input_ids : List (Nat × List Nat)
deriving DecidableEq

/-- `__init__(cache_size)`. -/
def ECM.init (cap : Nat) : ECM :=
  { cache_size := cap
    num_used_tokens := 0
    cache := []
    request_mm_hashes := []
    mm_hash_to_input_ids := [] }

/-- `has_cache`: the content key of `(request, input_id)` is present. -/
def has_cache (s : ECM) (r : Request) (i : Nat) : Bool :=
  (lookupA (r.mm_hash i) s.cache).isSome

/-- `sum(entry.num_tokens for entry in cache.values() if entry.in_use == 0)`. -/
def reclaimableTokens : Cache → Nat
  | [] => 0
  | p :: rest => (if p.2.in_use = 0 then p.2.num_tokens else 0) + reclaimableTokens rest

/-- `can_allocate`: admission predicate, no mutation. -/
def can_allocate (s : ECM) (r : Request) (i : Nat) : Bool :=
  let mm_hash := r.mm_hash i
  let num_tokens := r.num_encoder_tokens i
  match lookupA mm_hash s.cache with
  | some _ => true
  | none =>
    let available : Int := (s.cache_size : Int) - s.num_used_tokens
    let reclaimable : Int := (reclaimableTokens s.cache : Int)
    decide ((num_tokens : Int) ≤ available + reclaimable)

/-- The eviction loop of `allocate`: walk a snapshot of the cache items,
remove idle entries (and their reverse index) from the live cache until
the reclaimed total covers `required`, then stop.  Returns the reclaimed
total, the mutated cache, and the mutated `mm_hash_to_input_ids`. -/
def evictLoop (required : Int) :
    List (Nat × CacheEntry) → Nat → Cache → List (Nat × List Nat) →
    Nat × Cache × List (Nat × List Nat)
  | [], reclaimed, cache, mids => (reclaimed, cache, mids)
  | (k, e) :: rest, reclaimed, cache, mids =>
    if e.in_use = 0 then
      let reclaimed' := reclaimed + e.num_tokens
      let cache' := eraseKey k cache
      let mids' := eraseKey k mids
      if required ≤ (reclaimed' : Int) then (reclaimed', cache', mids')
      else evictLoop required rest reclaimed' cache' mids'
    else evictLoop required rest reclaimed cache mids

/-- The reverse-index updates at the tail of `allocate` (run on every
non-raising path). -/
def finishMaps (s : ECM) (request_id mm_hash i : Nat) : ECM :=
  { s with
    request_mm_hashes := dictSetAdd request_id mm_hash s.request_mm_hashes
    mm_hash_to_input_ids := dictSetAdd mm_hash i s.mm_hash_to_input_ids }

/-- `allocate`: commit one usage.  The `Bool` is `false` exactly when the
Python code raises `MemoryError`; the returned state is the object state
at that point (the evictions performed before the raise are kept, the
`num_used_tokens` decrement and the reverse-index updates are not
reached). -/
def allocate (s : ECM) (r : Request) (i : Nat) : ECM × Bool :=
  let request_id := r.request_id
  let mm_hash := r.mm_hash i
  let num_tokens := r.num_encoder_tokens i
  match lookupA mm_hash s.cache with
  | some entry =>
    let entry' : CacheEntry := { entry with in_use := entry.in_use + 1 }
    let cache1 := updateVal mm_hash entry' s.cache
    let cache2 := if entry'.in_use = 1 then moveToEnd mm_hash cache1 else cache1
    (finishMaps { s with cache := cache2 } request_id mm_hash i, true)
  | none =>
    let required : Int := (num_tokens : Int) - ((s.cache_size : Int) - s.num_used_tokens)
    if 0 < required then
      let res := evictLoop required s.cache 0 s.cache s.mm_hash_to_input_ids
      if (res.1 : Int) < required then
        ({ s with cache := res.2.1, mm_hash_to_input_ids := res.2.2 }, false)
      else
        let s1 : ECM :=
          { s with
            cache := res.2.1
            mm_hash_to_input_ids := res.2.2
            num_used_tokens := s.num_used_tokens - (res.1 : Int) }
        let s2 : ECM :=
          { s1 with
            cache := s1.cache ++ [(mm_hash, ⟨num_tokens, 1⟩)]
            num_used_tokens := s1.num_used_tokens + (num_tokens : Int) }
        (finishMaps s2 request_id mm_hash i, true)
    else
      let s2 : ECM :=
        { s with
          cache := s.cache ++ [(mm_hash, ⟨num_tokens, 1⟩)]
          num_used_tokens := s.num_used_tokens + (num_tokens : Int) }
      (finishMaps s2 request_id mm_hash i, true)

/-- `free`: release one usage.  No-op when the content key is absent. -/
def free (s : ECM) (r : Request) (i : Nat) : ECM :=
  let request_id := r.request_id
  let mm_hash := r.mm_hash i
  match lookupA mm_hash s.cache with
  | none => s
  | some entry =>
    let entry' : CacheEntry := { entry with in_use := entry.in_use - 1 }
    let cache1 := updateVal mm_hash entry' s.cache
    let cache2 := if entry'.in_use = 0 then moveToFront mm_hash cache1 else cache1
    let mids :=
      match lookupA mm_hash s.mm_hash_to_input_ids with
      | some (x :: xs) =>
        let ids := setDiscard i (x :: xs)
        if ids = [] then eraseKey mm_hash s.mm_hash_to_input_ids
        else updateVal mm_hash ids s.mm_hash_to_input_ids
      | _ => s.mm_hash_to_input_ids
    let rmm :=
      match lookupA request_id s.request_mm_hashes with
      | some (x :: xs) =>
        let hs := setDiscard mm_hash (x :: xs)
        if hs = [] then eraseKey request_id s.request_mm_hashes
        else updateVal request_id hs s.request_mm_hashes
      | _ => s.request_mm_hashes
    { s with cache := cache2, mm_hash_to_input_ids := mids, request_mm_hashes := rmm }

/-- Keys of the currently idle entries, in cache order. -/
def idleHashes : Cache → List Nat
  | [] => []
  | p :: rest => if p.2.in_use = 0 then p.1 :: idleHashes rest else idleHashes rest

/-- `get_freed_ids` of the effective class: a snapshot of the keys of the
idle entries, without mutating anything. -/
def get_freed_ids (s : ECM) : List Nat :=
  idleHashes s.cache

/-- One scheduler-visible operation on the cache manager. -/
inductive Op where
  | alloc (r : Request) (i : Nat)
  | free (r : Request) (i : Nat)
  | canAlloc (r : Request) (i : Nat)
  | hasCache (r : Request) (i : Nat)
  | getFreed

/-- Effect of an operation on the state.  `can_allocate`, `has_cache` and
`get_freed_ids` contain no assignment in the source, so they are the
identity on the state. -/
def step (s : ECM) : Op → ECM
  | Op.alloc r i => (allocate s r i).1
  | Op.free r i => free s r i
  | Op.canAlloc _ _ => s
  | Op.hasCache _ _ => s
  | Op.getFreed => s

/-- State reached from a fresh manager of capacity `cap` after a sequence
of operations. -/
def run (cap : Nat) (ops : List Op) : ECM :=
  ops.foldl step (ECM.init cap)

/-- The operation did not raise (`allocate` returned normally). -/
def stepOk (s : ECM) : Op → Bool
  | Op.alloc r i => (allocate s r i).2
  | _ => true

/-- Every operation along the run returns normally. -/
def okRun : ECM → List Op → Prop
  | _, [] => True
  | s, op :: rest => stepOk s op = true ∧ okRun (step s op) rest

/-- Sum of the costs of all entries present. -/
def sumCosts : Cache → Nat
  | [] => 0
  | p :: rest => p.2.num_tokens + sumCosts rest

/-- Number of bindings of a key. -/
def countKey {α : Type} (k : Nat) : List (Nat × α) → Nat
  | [] => 0
  | p :: rest => (if p.1 = k then 1 else 0) + countKey k rest

/-- Spec-side formulation of the reclaimable pool: total cost of the idle
entries. -/
def idleCost (c : Cache) : Nat :=
  sumCosts (c.filter (fun p => p.2.in_use == 0))

/-- Keys of an association list. -/
def keysOf {α : Type} (l : List (Nat × α)) : List Nat :=
  l.map Prod.fst

/-- Well-formed dict embedding: each key bound once. -/
def NodupKeys {α : Type} (l : List (Nat × α)) : Prop :=
  (keysOf l).Nodup

section AssocLemmas

variable {α : Type}

theorem lookupA_eraseKey_self (k : Nat) (l : List (Nat × α)) :
    lookupA k (eraseKey k l) = none := by
  induction l with
  | nil => rfl
  | cons p rest ih =>
    by_cases h : p.1 = k
    · simp [eraseKey, h, ih]
    · simp [eraseKey, lookupA, h, ih]

theorem lookupA_eraseKey_ne {k k' : Nat} (h : k ≠ k') (l : List (Nat × α)) :
    lookupA k (eraseKey k' l) = lookupA k l := by
  induction l with
  | nil => rfl
  | cons p rest ih =>
    by_cases hp : p.1 = k'
    · have hpk : p.1 ≠ k := by rw [hp]; exact fun hkk => h hkk.symm
      simp only [eraseKey, if_pos hp, lookupA, if_neg hpk, ih]
    · simp only [eraseKey, if_neg hp, lookupA, ih]

theorem eraseKey_idem (k : Nat) (l : List (Nat × α)) :
    eraseKey k (eraseKey k l) = eraseKey k l := by
  induction l with
  | nil => rfl
  | cons p rest ih =>
    by_cases h : p.1 = k
    · simp [eraseKey, h, ih]
    · simp [eraseKey, h, ih]

theorem eraseKey_updateVal (k : Nat) (v : α) (l : List (Nat × α)) :
    eraseKey k (updateVal k v l) = eraseKey k l := by
  induction l with
  | nil => rfl
  | cons p rest ih =>
    by_cases h : p.1 = k
    · simp [updateVal, eraseKey, h] at ih ⊢; exact ih
    · simp [updateVal, eraseKey, h] at ih ⊢; exact ih

theorem mem_of_mem_eraseKey {k : Nat} {p : Nat × α} {l : List (Nat × α)}
    (h : p ∈ eraseKey k l) : p ∈ l := by
  induction l with
  | nil => simp [eraseKey] at h
  | cons q rest ih =>
    by_cases hq : q.1 = k
    · simp only [eraseKey, if_pos hq] at h
      exact List.mem_cons_of_mem _ (ih h)
    · simp only [eraseKey, if_neg hq, List.mem_cons] at h
      rcases h with h | h
      · exact h ▸ List.mem_cons_self _ _
      · exact List.mem_cons_of_mem _ (ih h)

theorem lookupA_updateVal_self {k : Nat} {l : List (Nat × α)} (v : α)
    (h : (lookupA k l).isSome) :
    lookupA k (updateVal k v l) = some v := by
  induction l with
  | nil => simp [lookupA] at h
  | cons p rest ih =>
    by_cases hp : p.1 = k
    · show lookupA k ((if p.1 = k then (k, v) else p) :: updateVal k v rest) = some v
      rw [if_pos hp]
      simp [lookupA]
    · simp only [lookupA, if_neg hp] at h
      show lookupA k ((if p.1 = k then (k, v) else p) :: updateVal k v rest) = some v
      rw [if_neg hp]
      simp only [lookupA, if_neg hp]
      exact ih h

theorem lookupA_updateVal_ne {k k' : Nat} (h : k ≠ k') (v : α) (l : List (Nat × α)) :
    lookupA k (updateVal k' v l) = lookupA k l := by
  induction l with
  | nil => rfl
  | cons p rest ih =>
    show lookupA k ((if p.1 = k' then (k', v) else p) :: updateVal k' v rest)
        = lookupA k (p :: rest)
    by_cases hp : p.1 = k'
    · have hpk : p.1 ≠ k := by rw [hp]; exact fun hkk => h hkk.symm
      rw [if_pos hp]
      simp only [lookupA, if_neg (fun hkk => h hkk.symm : ¬ (k' = k)), if_neg hpk, ih]
    · rw [if_neg hp]
      simp only [lookupA, ih]

theorem lookupA_append_some {k : Nat} {l₁ : List (Nat × α)} {v : α}
    (h : lookupA k l₁ = some v) (l₂ : List (Nat × α)) :
    lookupA k (l₁ ++ l₂) = some v := by
  induction l₁ with
  | nil => simp [lookupA] at h
  | cons p rest ih =>
    by_cases hp : p.1 = k
    · simp only [lookupA, if_pos hp] at h
      simp [lookupA, hp, h]
    · simp only [lookupA, if_neg hp] at h
      simp [lookupA, hp, ih h]

theorem lookupA_append_none {k : Nat} {l₁ : List (Nat × α)}
    (h : lookupA k l₁ = none) (l₂ : List (Nat × α)) :
    lookupA k (l₁ ++ l₂) = lookupA k l₂ := by
  induction l₁ with
  | nil => rfl
  | cons p rest ih =>
    by_cases hp : p.1 = k
    · simp [lookupA, hp] at h
    · simp only [lookupA, if_neg hp] at h
      simp [lookupA, hp, ih h]

theorem lookupA_moveToEnd_self (k : Nat) (l : List (Nat × α)) :
    lookupA k (moveToEnd k l) = lookupA k l := by
  unfold moveToEnd
  cases h : lookupA k l with
  | none => exact h
  | some v =>
    show lookupA k (eraseKey k l ++ [(k, v)]) = some v
    rw [lookupA_append_none (lookupA_eraseKey_self k l)]
    simp [lookupA]

theorem lookupA_moveToEnd_ne {k k' : Nat} (h : k ≠ k') (l : List (Nat × α)) :
    lookupA k (moveToEnd k' l) = lookupA k l := by
  unfold moveToEnd
  cases hl : lookupA k' l with
  | none => rfl
  | some v =>
    show lookupA k (eraseKey k' l ++ [(k', v)]) = lookupA k l
    cases he : lookupA k (eraseKey k' l) with
    | some w =>
      rw [lookupA_append_some he]
      rw [lookupA_eraseKey_ne h] at he
      exact he.symm
    | none =>
      rw [lookupA_append_none he]
      rw [lookupA_eraseKey_ne h] at he
      simp [lookupA, if_neg (Ne.symm h), he]

theorem lookupA_moveToFront_self (k : Nat) (l : List (Nat × α)) :
    lookupA k (moveToFront k l) = lookupA k l := by
  unfold moveToFront
  cases h : lookupA k l with
  | none => exact h
  | some v =>
    show lookupA k ((k, v) :: eraseKey k l) = some v
    simp [lookupA]

theorem lookupA_moveToFront_ne {k k' : Nat} (h : k ≠ k') (l : List (Nat × α)) :
    lookupA k (moveToFront k' l) = lookupA k l := by
  unfold moveToFront
  cases hl : lookupA k' l with
  | none => rfl
  | some v =>
    show lookupA k ((k', v) :: eraseKey k' l) = lookupA k l
    simp only [lookupA, if_neg (Ne.symm h), lookupA_eraseKey_ne h]

theorem lookupA_none_iff_not_mem_keys {k : Nat} {l : List (Nat × α)} :
    lookupA k l = none ↔ k ∉ keysOf l := by
  induction l with
  | nil => simp [lookupA, keysOf]
  | cons p rest ih =>
    by_cases hp : p.1 = k
    · simp [lookupA, keysOf, hp]
    · simp [lookupA, keysOf, hp, ih, Ne.symm hp]

theorem lookupA_of_mem_nodup {k : Nat} {v : α} {l : List (Nat × α)}
    (hnd : NodupKeys l) (hm : (k, v) ∈ l) : lookupA k l = some v := by
  induction l with
  | nil => simp at hm
  | cons p rest ih =>
    rcases List.mem_cons.mp hm with h | h
    · simp [lookupA, ← h]
    · have hk : k ∈ keysOf rest := List.mem_map.mpr ⟨(k, v), h, rfl⟩
      have hnd' : NodupKeys rest := (List.nodup_cons.mp hnd).2
      by_cases hp : p.1 = k
      · exfalso
        have : p.1 ∉ keysOf rest := (List.nodup_cons.mp hnd).1
        exact this (hp ▸ hk)
      · simp [lookupA, hp, ih hnd' h]

theorem keysOf_updateVal (k : Nat) (v : α) (l : List (Nat × α)) :
    keysOf (updateVal k v l) = keysOf l := by
  induction l with
  | nil => rfl
  | cons p rest ih =>
    by_cases hp : p.1 = k
    · simp [updateVal, keysOf, hp] at ih ⊢; exact ih
    · simp [updateVal, keysOf, hp] at ih ⊢; exact ih

theorem eraseKey_sublist (k : Nat) (l : List (Nat × α)) :
    (eraseKey k l).Sublist l := by
  induction l with
  | nil => simp [eraseKey]
  | cons p rest ih =>
    by_cases hp : p.1 = k
    · simp only [eraseKey, if_pos hp]
      exact ih.cons p
    · simp only [eraseKey, if_neg hp]
      exact ih.cons₂ p

theorem nodupKeys_eraseKey {k : Nat} {l : List (Nat × α)} (h : NodupKeys l) :
    NodupKeys (eraseKey k l) :=
  List.Nodup.sublist (List.Sublist.map Prod.fst (eraseKey_sublist k l)) h

theorem not_mem_keys_eraseKey (k : Nat) (l : List (Nat × α)) :
    k ∉ keysOf (eraseKey k l) := by
  induction l with
  | nil => simp [eraseKey, keysOf]
  | cons q rest ih =>
    by_cases hq : q.1 = k
    · simp only [eraseKey, if_pos hq]
      exact ih
    · simp only [eraseKey, if_neg hq, keysOf, List.map_cons, List.mem_cons]
      intro hm
      rcases hm with hm | hm
      · exact hq hm.symm
      · exact ih hm

theorem nodupKeys_append_single {k : Nat} {v : α} {l : List (Nat × α)}
    (h : NodupKeys l) (hk : k ∉ keysOf l) : NodupKeys (l ++ [(k, v)]) := by
  unfold NodupKeys keysOf at *
  rw [List.map_append]
  apply List.Nodup.append h (by simp)
  intro a ha hb
  simp at hb
  exact hk (hb ▸ ha)

theorem nodupKeys_updateVal {k : Nat} {v : α} {l : List (Nat × α)} (h : NodupKeys l) :
    NodupKeys (updateVal k v l) := by
  unfold NodupKeys
  rw [keysOf_updateVal]
  exact h

theorem nodupKeys_moveToEnd {k : Nat} {l : List (Nat × α)} (h : NodupKeys l) :
    NodupKeys (moveToEnd k l) := by
  unfold moveToEnd
  cases hl : lookupA k l with
  | none => exact h
  | some v =>
    exact nodupKeys_append_single (nodupKeys_eraseKey h) (not_mem_keys_eraseKey k l)

theorem nodupKeys_moveToFront {k : Nat} {l : List (Nat × α)} (h : NodupKeys l) :
    NodupKeys (moveToFront k l) := by
  unfold moveToFront
  cases hl : lookupA k l with
  | none => exact h
  | some v =>
    unfold NodupKeys keysOf
    rw [List.map_cons]
    exact List.nodup_cons.mpr ⟨not_mem_keys_eraseKey k l, nodupKeys_eraseKey h⟩

theorem countKey_eq_zero_of_lookupA_none {k : Nat} {l : List (Nat × α)}
    (h : lookupA k l = none) : countKey k l = 0 := by
  induction l with
  | nil => rfl
  | cons p rest ih =>
    by_cases hp : p.1 = k
    · simp [lookupA, hp] at h
    · simp only [lookupA, if_neg hp] at h
      simp [countKey, hp, ih h]

theorem countKey_append (k : Nat) (l₁ l₂ : List (Nat × α)) :
    countKey k (l₁ ++ l₂) = countKey k l₁ + countKey k l₂ := by
  induction l₁ with
  | nil => simp [countKey]
  | cons p rest ih => simp [countKey, ih]; ring

theorem countKey_updateVal (k k' : Nat) (v : α) (l : List (Nat × α)) :
    countKey k (updateVal k' v l) = countKey k l := by
  induction l with
  | nil => rfl
  | cons p rest ih =>
    by_cases hp : p.1 = k'
    · by_cases hk : k' = k
      · simp [updateVal, countKey, hp, hk] at ih ⊢
        omega
      · simp [updateVal, countKey, hp, hk, hp ▸ hk] at ih ⊢
        simpa [hk, hp] using ih
    · simp [updateVal, countKey, hp] at ih ⊢
      omega

end AssocLemmas

section SumLemmas

theorem eraseKey_of_not_mem {α : Type} {k : Nat} {l : List (Nat × α)}
    (h : k ∉ keysOf l) : eraseKey k l = l := by
  induction l with
  | nil => rfl
  | cons p rest ih =>
    simp only [keysOf, List.map_cons, List.mem_cons, not_or] at h
    have hp : p.1 ≠ k := fun hp => h.1 (Eq.symm hp)
    simp only [eraseKey, if_neg hp]
    rw [ih (by simpa [keysOf] using h.2)]

theorem sumCosts_append (l₁ l₂ : Cache) :
    sumCosts (l₁ ++ l₂) = sumCosts l₁ + sumCosts l₂ := by
  induction l₁ with
  | nil => simp [sumCosts]
  | cons p rest ih => simp [sumCosts, ih]; ring

theorem sumCosts_eraseKey {k : Nat} {e : CacheEntry} {l : Cache}
    (hnd : NodupKeys l) (h : lookupA k l = some e) :
    sumCosts (eraseKey k l) + e.num_tokens = sumCosts l := by
  induction l with
  | nil => simp [lookupA] at h
  | cons p rest ih =>
    rcases List.nodup_cons.mp hnd with ⟨hpk, hnd'⟩
    by_cases hp : p.1 = k
    · simp only [lookupA, if_pos hp] at h
      have hpe : p.2 = e := Option.some.inj h
      have hkm : k ∉ keysOf rest := hp ▸ hpk
      simp only [eraseKey, if_pos hp, eraseKey_of_not_mem hkm, sumCosts, hpe]
      omega
    · simp only [lookupA, if_neg hp] at h
      simp only [eraseKey, if_neg hp, sumCosts]
      have := ih hnd' h
      omega

theorem updateVal_of_not_mem {α : Type} {k : Nat} {l : List (Nat × α)} (v : α)
    (h : k ∉ keysOf l) : updateVal k v l = l := by
  induction l with
  | nil => rfl
  | cons p rest ih =>
    simp only [keysOf, List.map_cons, List.mem_cons, not_or] at h
    show (if p.1 = k then (k, v) else p) :: updateVal k v rest = p :: rest
    rw [if_neg (fun hp => h.1 hp.symm), ih (by simpa [keysOf] using h.2)]

theorem sumCosts_updateVal_same {k : Nat} {e v : CacheEntry} {l : Cache}
    (h : lookupA k l = some e) (hv : v.num_tokens = e.num_tokens)
    (hnd : NodupKeys l) :
    sumCosts (updateVal k v l) = sumCosts l := by
  induction l with
  | nil => rfl
  | cons p rest ih =>
    rcases List.nodup_cons.mp hnd with ⟨hpk, hnd'⟩
    by_cases hp : p.1 = k
    · simp only [lookupA, if_pos hp] at h
      have hkm : k ∉ keysOf rest := hp ▸ hpk
      have hpe : p.2 = e := Option.some.inj h
      show sumCosts ((if p.1 = k then (k, v) else p) :: updateVal k v rest)
          = sumCosts (p :: rest)
      rw [if_pos hp, updateVal_of_not_mem v hkm]
      simp only [sumCosts, hv, hpe]
    · simp only [lookupA, if_neg hp] at h
      show sumCosts ((if p.1 = k then (k, v) else p) :: updateVal k v rest)
          = sumCosts (p :: rest)
      rw [if_neg hp]
      simp only [sumCosts, ih h hnd']

theorem sumCosts_moveToEnd {k : Nat} {l : Cache} (hnd : NodupKeys l) :
    sumCosts (moveToEnd k l) = sumCosts l := by
  unfold moveToEnd
  cases h : lookupA k l with
  | none => rfl
  | some v =>
    show sumCosts (eraseKey k l ++ [(k, v)]) = sumCosts l
    rw [sumCosts_append]
    have := sumCosts_eraseKey hnd h
    simp only [sumCosts] at *
    omega

theorem sumCosts_moveToFront {k : Nat} {l : Cache} (hnd : NodupKeys l) :
    sumCosts (moveToFront k l) = sumCosts l := by
  unfold moveToFront
  cases h : lookupA k l with
  | none => rfl
  | some v =>
    show sumCosts ((k, v) :: eraseKey k l) = sumCosts l
    have := sumCosts_eraseKey hnd h
    simp only [sumCosts] at *
    omega

end SumLemmas

section EvictLemmas

variable {K : Nat} {required : Int} {snap : List (Nat × CacheEntry)}
variable {acc : Nat} {c : Cache} {m : List (Nat × List Nat)}

theorem evictLoop_lookup_none
    (h : lookupA K c = none) :
    lookupA K (evictLoop required snap acc c m).2.1 = none := by
  induction snap generalizing acc c m with
  | nil => exact h
  | cons p rest ih =>
    obtain ⟨k, e⟩ := p
    simp only [evictLoop]
    by_cases hu : e.in_use = 0
    · rw [if_pos hu]
      have h' : lookupA K (eraseKey k c) = none := by
        by_cases hk : K = k
        · rw [hk]; exact lookupA_eraseKey_self k c
        · rw [lookupA_eraseKey_ne hk]; exact h
      by_cases hreq : required ≤ ((acc + e.num_tokens : Nat) : Int)
      · rw [if_pos hreq]; exact h'
      · rw [if_neg hreq]; exact ih h'
    · rw [if_neg hu]; exact ih h

theorem evictLoop_lookup_cases {e : CacheEntry}
    (hsnap : ∀ e', (K, e') ∈ snap → e' = e)
    (h : lookupA K c = some e) :
    lookupA K (evictLoop required snap acc c m).2.1 = some e ∨
      (e.in_use = 0 ∧ lookupA K (evictLoop required snap acc c m).2.1 = none) := by
  induction snap generalizing acc c m with
  | nil => exact Or.inl h
  | cons p rest ih =>
    obtain ⟨k, e₀⟩ := p
    have hsnap' : ∀ e', (K, e') ∈ rest → e' = e :=
      fun e' hm => hsnap e' (List.mem_cons_of_mem _ hm)
    simp only [evictLoop]
    by_cases hu : e₀.in_use = 0
    · rw [if_pos hu]
      by_cases hk : k = K
      · subst hk
        have he : e₀ = e := hsnap e₀ (List.mem_cons_self _ _)
        have h' : lookupA k (eraseKey k c) = none := lookupA_eraseKey_self k c
        by_cases hreq : required ≤ ((acc + e₀.num_tokens : Nat) : Int)
        · rw [if_pos hreq]
          exact Or.inr ⟨he ▸ hu, h'⟩
        · rw [if_neg hreq]
          exact Or.inr ⟨he ▸ hu, evictLoop_lookup_none h'⟩
      · have hKk : K ≠ k := fun hh => hk (Eq.symm hh)
        have h' : lookupA K (eraseKey k c) = some e := by
          rw [lookupA_eraseKey_ne hKk]; exact h
        by_cases hreq : required ≤ ((acc + e₀.num_tokens : Nat) : Int)
        · rw [if_pos hreq]; exact Or.inl h'
        · rw [if_neg hreq]; exact ih hsnap' h'
    · rw [if_neg hu]; exact ih hsnap' h

theorem evictLoop_reclaimed_lt
    (h : ((evictLoop required snap acc c m).1 : Int) < required) :
    (evictLoop required snap acc c m).1 = acc + reclaimableTokens snap := by
  induction snap generalizing acc c m with
  | nil => simp [evictLoop, reclaimableTokens]
  | cons p rest ih =>
    obtain ⟨k, e⟩ := p
    by_cases hu : e.in_use = 0
    · by_cases hreq : required ≤ ((acc + e.num_tokens : Nat) : Int)
      · simp only [evictLoop, if_pos hu, if_pos hreq] at h
        omega
      · simp only [evictLoop, if_pos hu, if_neg hreq] at h ⊢
        rw [ih h]
        simp only [reclaimableTokens, if_pos hu]
        omega
    · simp only [evictLoop, if_neg hu] at h ⊢
      rw [ih h]
      simp only [reclaimableTokens, if_neg hu]
      omega

theorem evictLoop_reclaimed_ge
    (h : required ≤ (acc : Int) + (reclaimableTokens snap : Int)) :
    required ≤ ((evictLoop required snap acc c m).1 : Int) := by
  induction snap generalizing acc c m with
  | nil => simpa [evictLoop, reclaimableTokens] using h
  | cons p rest ih =>
    obtain ⟨k, e⟩ := p
    by_cases hu : e.in_use = 0
    · by_cases hreq : required ≤ ((acc + e.num_tokens : Nat) : Int)
      · simp only [evictLoop, if_pos hu, if_pos hreq]
        exact hreq
      · simp only [evictLoop, if_pos hu, if_neg hreq]
        apply ih
        simp only [reclaimableTokens, if_pos hu] at h
        push_cast at h ⊢
        omega
    · simp only [evictLoop, if_neg hu]
      apply ih
      simp only [reclaimableTokens, if_neg hu] at h
      push_cast at h ⊢
      omega

theorem evictLoop_sumCosts
    (hsnap : ∀ p ∈ snap, lookupA p.1 c = some p.2)
    (hsk : (keysOf snap).Nodup) (hnd : NodupKeys c) :
    sumCosts (evictLoop required snap acc c m).2.1 + (evictLoop required snap acc c m).1
      = sumCosts c + acc := by
  induction snap generalizing acc c m with
  | nil => simp [evictLoop]
  | cons p rest ih =>
    obtain ⟨k, e⟩ := p
    have hke : lookupA k c = some e := hsnap (k, e) (List.mem_cons_self _ _)
    have hks : k ∉ keysOf rest ∧ (keysOf rest).Nodup := by
      simpa [keysOf] using hsk
    by_cases hu : e.in_use = 0
    · have herase := sumCosts_eraseKey hnd hke
      by_cases hreq : required ≤ ((acc + e.num_tokens : Nat) : Int)
      · simp only [evictLoop, if_pos hu, if_pos hreq]
        omega
      · simp only [evictLoop, if_pos hu, if_neg hreq]
        have hsnap' : ∀ p ∈ rest, lookupA p.1 (eraseKey k c) = some p.2 := by
          intro p hp
          have hpk : p.1 ≠ k := by
            intro hpk
            exact hks.1 (hpk ▸ List.mem_map.mpr ⟨p, hp, rfl⟩)
          rw [lookupA_eraseKey_ne hpk]
          exact hsnap p (List.mem_cons_of_mem _ hp)
        have := @ih (acc + e.num_tokens) (eraseKey k c) (eraseKey k m)
          hsnap' hks.2 (nodupKeys_eraseKey hnd)
        omega
    · simp only [evictLoop, if_neg hu]
      have hsnap' : ∀ p ∈ rest, lookupA p.1 c = some p.2 :=
        fun p hp => hsnap p (List.mem_cons_of_mem _ hp)
      exact ih hsnap' hks.2 hnd

theorem evictLoop_nodupKeys (hnd : NodupKeys c) :
    NodupKeys (evictLoop required snap acc c m).2.1 := by
  induction snap generalizing acc c m with
  | nil => exact hnd
  | cons p rest ih =>
    obtain ⟨k, e⟩ := p
    simp only [evictLoop]
    by_cases hu : e.in_use = 0
    · rw [if_pos hu]
      by_cases hreq : required ≤ ((acc + e.num_tokens : Nat) : Int)
      · rw [if_pos hreq]; exact nodupKeys_eraseKey hnd
      · rw [if_neg hreq]; exact ih (nodupKeys_eraseKey hnd)
    · rw [if_neg hu]; exact ih hnd

end EvictLemmas

section Characterization

/-- `required_tokens` computed inside the miss branch of `allocate`. -/
def requiredTokens (s : ECM) (r : Request) (i : Nat) : Int :=
  (r.num_encoder_tokens i : Int) - ((s.cache_size : Int) - s.num_used_tokens)

/-- Result of the eviction loop as invoked by `allocate` on a miss. -/
def evictResult (s : ECM) (r : Request) (i : Nat) :
    Nat × Cache × List (Nat × List Nat) :=
  evictLoop (requiredTokens s r i) s.cache 0 s.cache s.mm_hash_to_input_ids

theorem finishMaps_cache (s : ECM) (a b c : Nat) :
    (finishMaps s a b c).cache = s.cache := rfl

theorem finishMaps_size (s : ECM) (a b c : Nat) :
    (finishMaps s a b c).cache_size = s.cache_size := rfl

theorem finishMaps_used (s : ECM) (a b c : Nat) :
    (finishMaps s a b c).num_used_tokens = s.num_used_tokens := rfl

theorem allocate_of_hit {s : ECM} {r : Request} {i : Nat} {entry : CacheEntry}
    (h : lookupA (r.mm_hash i) s.cache = some entry) :
    allocate s r i =
      (finishMaps
        { s with cache :=
            (if entry.in_use + 1 = 1 then
              moveToEnd (r.mm_hash i)
                (updateVal (r.mm_hash i) ⟨entry.num_tokens, entry.in_use + 1⟩ s.cache)
            else
              updateVal (r.mm_hash i) ⟨entry.num_tokens, entry.in_use + 1⟩ s.cache) }
        r.request_id (r.mm_hash i) i, true) := by
  unfold allocate
  dsimp only
  rw [h]

theorem allocate_of_miss_fits {s : ECM} {r : Request} {i : Nat}
    (h : lookupA (r.mm_hash i) s.cache = none)
    (hfit : ¬ 0 < requiredTokens s r i) :
    allocate s r i =
      (finishMaps
        { s with
          cache := s.cache ++ [(r.mm_hash i, ⟨r.num_encoder_tokens i, 1⟩)]
          num_used_tokens := s.num_used_tokens + (r.num_encoder_tokens i : Int) }
        r.request_id (r.mm_hash i) i, true) := by
  unfold requiredTokens at hfit
  unfold allocate
  dsimp only
  rw [h, if_neg hfit]

theorem allocate_of_miss_fail {s : ECM} {r : Request} {i : Nat}
    (h : lookupA (r.mm_hash i) s.cache = none)
    (h0 : 0 < requiredTokens s r i)
    (hfail : ((evictResult s r i).1 : Int) < requiredTokens s r i) :
    allocate s r i =
      ({ s with
          cache := (evictResult s r i).2.1
          mm_hash_to_input_ids := (evictResult s r i).2.2 }, false) := by
  unfold evictResult at hfail ⊢
  unfold requiredTokens at h0 hfail ⊢
  unfold allocate
  dsimp only
  rw [h, if_pos h0, if_pos hfail]

theorem allocate_of_miss_evict {s : ECM} {r : Request} {i : Nat}
    (h : lookupA (r.mm_hash i) s.cache = none)
    (h0 : 0 < requiredTokens s r i)
    (hok : ¬ ((evictResult s r i).1 : Int) < requiredTokens s r i) :
    allocate s r i =
      (finishMaps
        { s with
          cache := (evictResult s r i).2.1 ++ [(r.mm_hash i, ⟨r.num_encoder_tokens i, 1⟩)]
          mm_hash_to_input_ids := (evictResult s r i).2.2
          num_used_tokens :=
            s.num_used_tokens - ((evictResult s r i).1 : Int) + (r.num_encoder_tokens i : Int) }
        r.request_id (r.mm_hash i) i, true) := by
  unfold evictResult at hok ⊢
  unfold requiredTokens at h0 hok ⊢
  unfold allocate
  dsimp only
  rw [h, if_pos h0, if_neg hok]

theorem free_of_absent {s : ECM} {r : Request} {i : Nat}
    (h : lookupA (r.mm_hash i) s.cache = none) :
    free s r i = s := by
  unfold free
  dsimp only
  rw [h]

theorem free_cache_of_found {s : ECM} {r : Request} {i : Nat} {entry : CacheEntry}
    (h : lookupA (r.mm_hash i) s.cache = some entry) :
    (free s r i).cache =
      if entry.in_use - 1 = 0
      then moveToFront (r.mm_hash i)
        (updateVal (r.mm_hash i) ⟨entry.num_tokens, entry.in_use - 1⟩ s.cache)
      else updateVal (r.mm_hash i) ⟨entry.num_tokens, entry.in_use - 1⟩ s.cache := by
  unfold free
  dsimp only
  rw [h]

theorem free_used (s : ECM) (r : Request) (i : Nat) :
    (free s r i).num_used_tokens = s.num_used_tokens := by
  unfold free
  dsimp only
  cases lookupA (r.mm_hash i) s.cache <;> rfl

theorem free_size (s : ECM) (r : Request) (i : Nat) :
    (free s r i).cache_size = s.cache_size := by
  unfold free
  dsimp only
  cases lookupA (r.mm_hash i) s.cache <;> rfl

theorem step_cache_size (s : ECM) (op : Op) :
    (step s op).cache_size = s.cache_size := by
  cases op with
  | alloc r i =>
    show ((allocate s r i).1).cache_size = s.cache_size
    cases h : lookupA (r.mm_hash i) s.cache with
    | some entry => rw [allocate_of_hit h]; rfl
    | none =>
      by_cases h0 : 0 < requiredTokens s r i
      · by_cases hfail : ((evictResult s r i).1 : Int) < requiredTokens s r i
        · rw [allocate_of_miss_fail h h0 hfail]
        · rw [allocate_of_miss_evict h h0 hfail]; rfl
      · rw [allocate_of_miss_fits h h0]; rfl
  | free r i => exact free_size s r i
  | canAlloc r i => rfl
  | hasCache r i => rfl
  | getFreed => rfl

end Characterization

section Invariants

theorem allocate_nodup {s : ECM} {r : Request} {i : Nat}
    (hnd : NodupKeys s.cache) : NodupKeys ((allocate s r i).1).cache := by
  cases h : lookupA (r.mm_hash i) s.cache with
  | some entry =>
    rw [allocate_of_hit h]
    show NodupKeys (finishMaps _ _ _ _).cache
    rw [finishMaps_cache]
    by_cases hone : entry.in_use + 1 = 1
    · rw [if_pos hone]
      exact nodupKeys_moveToEnd (nodupKeys_updateVal hnd)
    · rw [if_neg hone]
      exact nodupKeys_updateVal hnd
  | none =>
    by_cases h0 : 0 < requiredTokens s r i
    · by_cases hfail : ((evictResult s r i).1 : Int) < requiredTokens s r i
      · rw [allocate_of_miss_fail h h0 hfail]
        exact evictLoop_nodupKeys hnd
      · rw [allocate_of_miss_evict h h0 hfail]
        show NodupKeys (finishMaps _ _ _ _).cache
        rw [finishMaps_cache]
        apply nodupKeys_append_single (evictLoop_nodupKeys hnd)
        exact lookupA_none_iff_not_mem_keys.mp (evictLoop_lookup_none h)
    · rw [allocate_of_miss_fits h h0]
      show NodupKeys (finishMaps _ _ _ _).cache
      rw [finishMaps_cache]
      exact nodupKeys_append_single hnd (lookupA_none_iff_not_mem_keys.mp h)

theorem free_nodup {s : ECM} {r : Request} {i : Nat}
    (hnd : NodupKeys s.cache) : NodupKeys (free s r i).cache := by
  cases h : lookupA (r.mm_hash i) s.cache with
  | none => rw [free_of_absent h]; exact hnd
  | some entry =>
    rw [free_cache_of_found h]
    by_cases hz : entry.in_use - 1 = 0
    · rw [if_pos hz]
      exact nodupKeys_moveToFront (nodupKeys_updateVal hnd)
    · rw [if_neg hz]
      exact nodupKeys_updateVal hnd

theorem step_nodup {s : ECM} (op : Op) (hnd : NodupKeys s.cache) :
    NodupKeys (step s op).cache := by
  cases op with
  | alloc r i => exact allocate_nodup hnd
  | free r i => exact free_nodup hnd
  | canAlloc r i => exact hnd
  | hasCache r i => exact hnd
  | getFreed => exact hnd

theorem foldl_nodup (ops : List Op) :
    ∀ s : ECM, NodupKeys s.cache → NodupKeys (ops.foldl step s).cache := by
  induction ops with
  | nil => exact fun s h => h
  | cons op rest ih =>
    intro s h
    exact ih (step s op) (step_nodup op h)

theorem run_nodup (cap : Nat) (ops : List Op) : NodupKeys (run cap ops).cache :=
  foldl_nodup ops (ECM.init cap) (by simp [ECM.init, NodupKeys, keysOf])

/-- Conservation invariant: the usage counter equals the total cost of the
entries present and stays within capacity. -/
def ConsInv (s : ECM) : Prop :=
  s.num_used_tokens = (sumCosts s.cache : Int) ∧
    s.num_used_tokens ≤ (s.cache_size : Int)

theorem sumCosts_updateVal_inuse {k : Nat} {l : Cache} {entry : CacheEntry} {x : Int}
    (h : lookupA k l = some entry) (hnd : NodupKeys l) :
    sumCosts (updateVal k ⟨entry.num_tokens, x⟩ l) = sumCosts l :=
  sumCosts_updateVal_same h rfl hnd

theorem cons_step {s : ECM} {op : Op} (hnd : NodupKeys s.cache)
    (hc : ConsInv s) (hok : stepOk s op = true) : ConsInv (step s op) := by
  obtain ⟨hsum, hcap⟩ := hc
  cases op with
  | canAlloc r i => exact ⟨hsum, hcap⟩
  | hasCache r i => exact ⟨hsum, hcap⟩
  | getFreed => exact ⟨hsum, hcap⟩
  | free r i =>
    show ConsInv (free s r i)
    refine ⟨?_, ?_⟩
    · rw [free_used]
      cases h : lookupA (r.mm_hash i) s.cache with
      | none => rw [free_of_absent h]; exact hsum
      | some entry =>
        rw [free_cache_of_found h]
        by_cases hz : entry.in_use - 1 = 0
        · rw [if_pos hz, sumCosts_moveToFront (nodupKeys_updateVal hnd),
            sumCosts_updateVal_inuse h hnd]
          exact hsum
        · rw [if_neg hz, sumCosts_updateVal_inuse h hnd]
          exact hsum
    · rw [free_used, free_size]
      exact hcap
  | alloc r i =>
    show ConsInv ((allocate s r i).1)
    cases h : lookupA (r.mm_hash i) s.cache with
    | some entry =>
      rw [allocate_of_hit h]
      refine ⟨?_, ?_⟩ <;>
        simp only [finishMaps_cache, finishMaps_used, finishMaps_size]
      · by_cases hone : entry.in_use + 1 = 1
        · rw [if_pos hone, sumCosts_moveToEnd (nodupKeys_updateVal hnd),
            sumCosts_updateVal_inuse h hnd]
          exact hsum
        · rw [if_neg hone, sumCosts_updateVal_inuse h hnd]
          exact hsum
      · exact hcap
    | none =>
      by_cases h0 : 0 < requiredTokens s r i
      · by_cases hfail : ((evictResult s r i).1 : Int) < requiredTokens s r i
        · exfalso
          have : (allocate s r i).2 = false := by rw [allocate_of_miss_fail h h0 hfail]
          simp only [stepOk] at hok
          rw [this] at hok
          exact Bool.false_ne_true hok
        · rw [allocate_of_miss_evict h h0 hfail]
          have hsnap : ∀ p ∈ s.cache, lookupA p.1 s.cache = some p.2 :=
            fun p hp => lookupA_of_mem_nodup hnd (by exact hp)
          have hev : sumCosts (evictResult s r i).2.1 + (evictResult s r i).1
              = sumCosts s.cache + 0 :=
            evictLoop_sumCosts hsnap hnd hnd
          have hreq : requiredTokens s r i ≤ ((evictResult s r i).1 : Int) := not_lt.mp hfail
          unfold requiredTokens at hreq
          refine ⟨?_, ?_⟩ <;>
            simp only [finishMaps_cache, finishMaps_used, finishMaps_size]
          · rw [sumCosts_append]
            simp only [sumCosts]
            push_cast
            omega
          · omega
      · rw [allocate_of_miss_fits h h0]
        unfold requiredTokens at h0
        refine ⟨?_, ?_⟩ <;>
          simp only [finishMaps_cache, finishMaps_used, finishMaps_size]
        · rw [sumCosts_append]
          simp only [sumCosts]
          push_cast
          omega
        · omega

theorem cons_foldl (ops : List Op) :
    ∀ s : ECM, NodupKeys s.cache → ConsInv s → okRun s ops →
      ConsInv (ops.foldl step s) := by
  induction ops with
  | nil => exact fun s _ hc _ => hc
  | cons op rest ih =>
    intro s hnd hc hok
    exact ih (step s op) (step_nodup op hnd) (cons_step hnd hc hok.1) hok.2

end Invariants

section ConcreteData

/-- Request 1, content key 11, cost 5. -/
def reqA : Request := ⟨1, fun _ => 11, fun _ => 5⟩

/-- Request 2, content key 12, cost 5. -/
def reqB : Request := ⟨2, fun _ => 12, fun _ => 5⟩

/-- Request 3, content key 13, cost 5. -/
def reqC : Request := ⟨3, fun _ => 13, fun _ => 5⟩

/-- Request 1, content key 101, cost 6. -/
def reqK1 : Request := ⟨1, fun _ => 101, fun _ => 6⟩

/-- Request 2, content key 102, cost 20 (oversized). -/
def reqK2 : Request := ⟨2, fun _ => 102, fun _ => 20⟩

/-- Request 4 sharing content key 11 with `reqA`, cost 9. -/
def reqShare : Request := ⟨4, fun _ => 11, fun _ => 9⟩

/-- Request 5 sharing content key 11 with `reqA`, cost 5. -/
def reqD : Request := ⟨5, fun _ => 11, fun _ => 5⟩

end ConcreteData

/-- Claim C1: for every reachable cache state, an `allocate` call never
removes an entry whose reference count `in_use` is strictly positive —
only idle entries (`in_use = 0`) are ever evicted, whatever interleaving
of operations produced the state and whether or not the `allocate`
succeeds. -/
theorem C1_no_eviction_of_active (cap : Nat) (ops : List Op) (r : Request)
    (i k : Nat) (e : CacheEntry)
    (hk : lookupA k (run cap ops).cache = some e) (hpos : 0 < e.in_use) :
    (lookupA k ((allocate (run cap ops) r i).1).cache).isSome = true := by
  set s := run cap ops with hs
  have hnd : NodupKeys s.cache := run_nodup cap ops
  cases h : lookupA (r.mm_hash i) s.cache with
  | some entry =>
    simp only [allocate_of_hit h, finishMaps_cache]
    by_cases hkk : k = r.mm_hash i
    · subst hkk
      have he : entry = e := Option.some.inj (h.symm.trans hk)
      subst he
      have hone : ¬ entry.in_use + 1 = 1 := by omega
      rw [if_neg hone, lookupA_updateVal_self _ (by rw [hk]; rfl)]
      rfl
    · by_cases hone : entry.in_use + 1 = 1
      · rw [if_pos hone, lookupA_moveToEnd_ne hkk, lookupA_updateVal_ne hkk, hk]
        rfl
      · rw [if_neg hone, lookupA_updateVal_ne hkk, hk]
        rfl
  | none =>
    have hkk : k ≠ r.mm_hash i := by
      intro hkk
      rw [hkk, h] at hk
      exact Option.noConfusion hk
    have hsnap : ∀ e', (k, e') ∈ s.cache → e' = e := by
      intro e' hm
      exact Option.some.inj ((lookupA_of_mem_nodup hnd hm).symm.trans hk)
    have hcases :
        lookupA k (evictResult s r i).2.1 = some e ∨
          (e.in_use = 0 ∧ lookupA k (evictResult s r i).2.1 = none) :=
      evictLoop_lookup_cases hsnap hk
    have hkeep : lookupA k (evictResult s r i).2.1 = some e := by
      rcases hcases with hc | hc
      · exact hc
      · omega
    by_cases h0 : 0 < requiredTokens s r i
    · by_cases hfail : ((evictResult s r i).1 : Int) < requiredTokens s r i
      · simp only [allocate_of_miss_fail h h0 hfail]
        rw [hkeep]
        rfl
      · simp only [allocate_of_miss_evict h h0 hfail, finishMaps_cache]
        rw [lookupA_append_some hkeep]
        rfl
    · simp only [allocate_of_miss_fits h h0, finishMaps_cache]
      rw [lookupA_append_some hk]
      rfl

/-- Witness for C1 at a concrete input: after allocating key 11 (cost 5,
active), a further allocate of key 12 keeps key 11 in the cache. -/
theorem C1_witness :
    lookupA 11 (run 10 [Op.alloc reqA 0]).cache = some ⟨5, 1⟩ ∧
    (0 : Int) < (CacheEntry.mk 5 1).in_use ∧
    (lookupA 11 ((allocate (run 10 [Op.alloc reqA 0]) reqB 0).1).cache).isSome = true := by
  refine ⟨by decide, by decide, ?_⟩
  exact C1_no_eviction_of_active 10 [Op.alloc reqA 0] reqB 0 11 ⟨5, 1⟩ (by decide) (by decide)

/-- Counterexample to claim C2 as stated: a failed `allocate` (raising
`MemoryError`) evicts idle entries from the cache but skips the
`num_used_tokens` decrement, so afterwards the usage counter (6) differs
from the total cost of the entries present (0). -/
theorem C2_counterexample :
    (run 10 [Op.alloc reqK1 0, Op.free reqK1 0, Op.alloc reqK2 0]).num_used_tokens = 6 ∧
    sumCosts (run 10 [Op.alloc reqK1 0, Op.free reqK1 0, Op.alloc reqK2 0]).cache = 0 ∧
    (run 10 [Op.alloc reqK1 0, Op.free reqK1 0, Op.alloc reqK2 0]).num_used_tokens ≠
      (sumCosts (run 10 [Op.alloc reqK1 0, Op.free reqK1 0, Op.alloc reqK2 0]).cache : Int) := by
  refine ⟨by decide, by decide, by decide⟩

/-- Claim C2 (amended): after every sequence of operations in which every
`allocate` returns normally (no `MemoryError`), the usage counter equals
the total cost of the entries present and never exceeds the capacity. -/
theorem C2_conservation (cap : Nat) (ops : List Op)
    (hok : okRun (ECM.init cap) ops) :
    (run cap ops).num_used_tokens = (sumCosts (run cap ops).cache : Int) ∧
    (run cap ops).num_used_tokens ≤ ((run cap ops).cache_size : Int) :=
  cons_foldl ops (ECM.init cap)
    (by simp [ECM.init, NodupKeys, keysOf])
    ⟨by simp [ECM.init, sumCosts], by simp [ECM.init]⟩
    hok

/-- Witness for C2 at a concrete input: an allocate/free pair succeeds and
conservation holds afterwards. -/
theorem C2_witness :
    okRun (ECM.init 10) [Op.alloc reqA 0, Op.free reqA 0] ∧
    (run 10 [Op.alloc reqA 0, Op.free reqA 0]).num_used_tokens
      = (sumCosts (run 10 [Op.alloc reqA 0, Op.free reqA 0]).cache : Int) := by
  have hok : okRun (ECM.init 10) [Op.alloc reqA 0, Op.free reqA 0] :=
    ⟨by decide, by decide, trivial⟩
  exact ⟨hok, (C2_conservation 10 [Op.alloc reqA 0, Op.free reqA 0] hok).1⟩

theorem reclaimableTokens_eq_idleCost (l : Cache) :
    reclaimableTokens l = idleCost l := by
  induction l with
  | nil => rfl
  | cons p rest ih =>
    unfold reclaimableTokens idleCost
    unfold idleCost at ih
    by_cases h : p.2.in_use = 0
    · have hb : (p.2.in_use == 0) = true := beq_iff_eq.mpr h
      rw [if_pos h, List.filter_cons_of_pos (by exact hb)]
      simp only [sumCosts, ih]
    · have hb : ¬ (p.2.in_use == 0) = true := by
        intro hb
        exact h (beq_iff_eq.mp hb)
      rw [if_neg h, List.filter_cons_of_neg (by simpa using hb)]
      simp only [ih, Nat.zero_add]

theorem evictLoop_reclaimed_le {required : Int} {snap : List (Nat × CacheEntry)}
    {acc : Nat} {c : Cache} {m : List (Nat × List Nat)} :
    (evictLoop required snap acc c m).1 ≤ acc + reclaimableTokens snap := by
  induction snap generalizing acc c m with
  | nil => simp [evictLoop, reclaimableTokens]
  | cons p rest ih =>
    obtain ⟨k, e⟩ := p
    by_cases hu : e.in_use = 0
    · by_cases hreq : required ≤ ((acc + e.num_tokens : Nat) : Int)
      · simp only [evictLoop, if_pos hu, if_pos hreq, reclaimableTokens]
        omega
      · simp only [evictLoop, if_pos hu, if_neg hreq, reclaimableTokens]
        have := @ih (acc + e.num_tokens) (eraseKey k c) (eraseKey k m)
        omega
    · simp only [evictLoop, if_neg hu, reclaimableTokens]
      have := @ih acc c m
      omega

/-- Claim C4: `can_allocate` returns `true` unconditionally when the
content key is already cached; for an uncached key it returns `true`
exactly when the needed cost fits in the free capacity plus the total cost
of the currently idle entries; and in all cases it leaves the state
unchanged. -/
theorem C4_can_allocate_spec (s : ECM) (r : Request) (i : Nat) :
    ((lookupA (r.mm_hash i) s.cache).isSome = true → can_allocate s r i = true) ∧
    (lookupA (r.mm_hash i) s.cache = none →
      (can_allocate s r i = true ↔
        (r.num_encoder_tokens i : Int) ≤
          ((s.cache_size : Int) - s.num_used_tokens) + (idleCost s.cache : Int))) ∧
    step s (Op.canAlloc r i) = s := by
  refine ⟨?_, ?_, rfl⟩
  · intro h
    unfold can_allocate
    dsimp only
    cases hl : lookupA (r.mm_hash i) s.cache with
    | some entry => rfl
    | none =>
      rw [hl] at h
      exact absurd h (by simp)
  · intro hnone
    unfold can_allocate
    dsimp only
    rw [hnone, ← reclaimableTokens_eq_idleCost]
    exact decide_eq_true_iff

/-- Witness for C4 at a concrete input: on the fresh manager of capacity
10 the key of `reqA` is uncached, `can_allocate` answers true (5 ≤ 10 + 0)
and the state is untouched. -/
theorem C4_witness :
    lookupA (reqA.mm_hash 0) (ECM.init 10).cache = none ∧
    can_allocate (ECM.init 10) reqA 0 = true ∧
    step (ECM.init 10) (Op.canAlloc reqA 0) = ECM.init 10 := by
  refine ⟨by decide, ?_, (C4_can_allocate_spec (ECM.init 10) reqA 0).2.2⟩
  exact ((C4_can_allocate_spec (ECM.init 10) reqA 0).2.1 (by decide)).mpr (by decide)

/-- Claim C5: for an uncached key, `allocate` raises (returns abnormally)
exactly when the needed cost exceeds the free capacity plus the total idle
cost; and whenever a `can_allocate` on the same state answers true,
`allocate` returns normally. -/
theorem C5_allocate_failure (s : ECM) (r : Request) (i : Nat) :
    (lookupA (r.mm_hash i) s.cache = none →
      ((allocate s r i).2 = false ↔
        ((s.cache_size : Int) - s.num_used_tokens) + (idleCost s.cache : Int)
          < (r.num_encoder_tokens i : Int))) ∧
    (can_allocate s r i = true → (allocate s r i).2 = true) := by
  have hrle : ∀ req : Int, ((evictLoop req s.cache 0 s.cache s.mm_hash_to_input_ids).1 : Int)
      ≤ (reclaimableTokens s.cache : Int) := by
    intro req
    have := @evictLoop_reclaimed_le req s.cache 0 s.cache s.mm_hash_to_input_ids
    omega
  constructor
  · intro h
    rw [← reclaimableTokens_eq_idleCost]
    constructor
    · intro hfalse
      by_cases h0 : 0 < requiredTokens s r i
      · by_cases hfail : ((evictResult s r i).1 : Int) < requiredTokens s r i
        · have htot : (evictResult s r i).1 = 0 + reclaimableTokens s.cache :=
            evictLoop_reclaimed_lt hfail
          unfold requiredTokens at hfail
          rw [htot] at hfail
          push_cast at hfail
          omega
        · rw [allocate_of_miss_evict h h0 hfail] at hfalse
          exact absurd hfalse (by simp)
      · rw [allocate_of_miss_fits h h0] at hfalse
        exact absurd hfalse (by simp)
    · intro hlt
      have hidle : (0 : Int) ≤ (reclaimableTokens s.cache : Int) := by positivity
      have h0 : 0 < requiredTokens s r i := by
        unfold requiredTokens
        omega
      have hfail : ((evictResult s r i).1 : Int) < requiredTokens s r i := by
        have hle := hrle (requiredTokens s r i)
        unfold evictResult
        unfold requiredTokens at *
        omega
      rw [allocate_of_miss_fail h h0 hfail]
  · intro hcan
    cases hl : lookupA (r.mm_hash i) s.cache with
    | some entry => rw [allocate_of_hit hl]
    | none =>
      have hle : (r.num_encoder_tokens i : Int) ≤
          ((s.cache_size : Int) - s.num_used_tokens) + (reclaimableTokens s.cache : Int) := by
        unfold can_allocate at hcan
        dsimp only at hcan
        rw [hl] at hcan
        exact of_decide_eq_true hcan
      by_cases h0 : 0 < requiredTokens s r i
      · have hfail : ¬ ((evictResult s r i).1 : Int) < requiredTokens s r i := by
          have := @evictLoop_reclaimed_ge (requiredTokens s r i) s.cache 0 s.cache
            s.mm_hash_to_input_ids (by unfold requiredTokens; push_cast; omega)
          unfold evictResult
          omega
        rw [allocate_of_miss_evict hl h0 hfail]
      · rw [allocate_of_miss_fits hl h0]

/-- Witness for C5 at a concrete input: on the fresh manager of capacity 2
the key of `reqA` (cost 5) is uncached and `allocate` raises, since
2 + 0 < 5. -/
theorem C5_witness :
    lookupA (reqA.mm_hash 0) (ECM.init 2).cache = none ∧
    (allocate (ECM.init 2) reqA 0).2 = false := by
  refine ⟨by decide, ?_⟩
  exact ((C5_allocate_failure (ECM.init 2) reqA 0).1 (by decide)).mpr (by decide)

/-- Counterexample to claim C9 as stated: `reqShare` was never allocated,
but its content key (11) is cached through `reqA`'s usage, so
`free(reqShare, 0)` decrements the shared entry's refcount from 1 to 0 and
changes the state — the no-op guard keys on the content key, not on the
`(request, input_id)` pair. -/
theorem C9_counterexample :
    lookupA 11 (run 10 [Op.alloc reqA 0]).cache = some ⟨5, 1⟩ ∧
    lookupA 11 (free (run 10 [Op.alloc reqA 0]) reqShare 0).cache = some ⟨5, 0⟩ ∧
    free (run 10 [Op.alloc reqA 0]) reqShare 0 ≠ run 10 [Op.alloc reqA 0] := by
  refine ⟨by decide, by decide, by decide⟩

/-- Claim C9 (amended): `free` on a `(request, input_id)` whose content
key has no cache entry raises no exception, appends nothing, and leaves
the entire state unchanged. -/
theorem C9_free_unknown_key_noop (s : ECM) (r : Request) (i : Nat)
    (h : lookupA (r.mm_hash i) s.cache = none) :
    free s r i = s :=
  free_of_absent h

/-- Witness for C9 at a concrete input: key 13 is absent after allocating
key 11 only, and `free` for `reqC` leaves the state untouched. -/
theorem C9_witness :
    lookupA (reqC.mm_hash 0) (run 10 [Op.alloc reqA 0]).cache = none ∧
    free (run 10 [Op.alloc reqA 0]) reqC 0 = run 10 [Op.alloc reqA 0] := by
  refine ⟨by decide, ?_⟩
  exact C9_free_unknown_key_noop (run 10 [Op.alloc reqA 0]) reqC 0 (by decide)

/-- On a successful miss, `allocate` appends a fresh entry of cost
`num_tokens` with refcount 1 behind a cache segment free of that key. -/
theorem allocate_miss_ok_cache {s : ECM} {r : Request} {i : Nat}
    (hmiss : lookupA (r.mm_hash i) s.cache = none)
    (hok : (allocate s r i).2 = true) :
    ∃ c₀ : Cache,
      ((allocate s r i).1).cache = c₀ ++ [(r.mm_hash i, ⟨r.num_encoder_tokens i, 1⟩)] ∧
      lookupA (r.mm_hash i) c₀ = none := by
  by_cases h0 : 0 < requiredTokens s r i
  · by_cases hfail : ((evictResult s r i).1 : Int) < requiredTokens s r i
    · rw [allocate_of_miss_fail hmiss h0 hfail] at hok
      exact absurd hok (by simp)
    · refine ⟨(evictResult s r i).2.1, ?_, evictLoop_lookup_none hmiss⟩
      rw [allocate_of_miss_evict hmiss h0 hfail]
      rfl
  · refine ⟨s.cache, ?_, hmiss⟩
    rw [allocate_of_miss_fits hmiss h0]
    rfl

/-- Claim C7: two different usages with the same content key share a
single `CacheEntry` whose refcount reaches 2 after both are admitted;
freeing one usage leaves refcount 1 and the key still answers
`has_cache` for the remaining usage. -/
theorem C7_sharing (s : ECM) (r1 r2 : Request) (i1 i2 : Nat)
    (hkey : r1.mm_hash i1 = r2.mm_hash i2)
    (hpair : (r1.request_id, i1) ≠ (r2.request_id, i2))
    (hmiss : lookupA (r1.mm_hash i1) s.cache = none)
    (hok : (allocate s r1 i1).2 = true) :
    lookupA (r1.mm_hash i1) ((allocate ((allocate s r1 i1).1) r2 i2).1).cache
      = some ⟨r1.num_encoder_tokens i1, 2⟩ ∧
    countKey (r1.mm_hash i1) ((allocate ((allocate s r1 i1).1) r2 i2).1).cache = 1 ∧
    lookupA (r1.mm_hash i1)
        (free ((allocate ((allocate s r1 i1).1) r2 i2).1) r1 i1).cache
      = some ⟨r1.num_encoder_tokens i1, 1⟩ ∧
    has_cache (free ((allocate ((allocate s r1 i1).1) r2 i2).1) r1 i1) r2 i2 = true := by
  obtain ⟨c₀, hc, hc0⟩ := allocate_miss_ok_cache hmiss hok
  set k := r1.mm_hash i1 with hkdef
  set n := r1.num_encoder_tokens i1 with hndef
  set s1 := (allocate s r1 i1).1 with hs1
  have h1 : lookupA k s1.cache = some ⟨n, 1⟩ := by
    rw [hc, lookupA_append_none hc0]
    simp [lookupA]
  have hcount1 : countKey k s1.cache = 1 := by
    rw [hc, countKey_append, countKey_eq_zero_of_lookupA_none hc0]
    simp [countKey]
  have h2 : lookupA (r2.mm_hash i2) s1.cache = some ⟨n, 1⟩ := by
    rw [← hkey]
    exact h1
  set s2 := (allocate s1 r2 i2).1 with hs2
  have hcache2 : s2.cache = updateVal (r2.mm_hash i2) ⟨n, 1 + 1⟩ s1.cache := by
    rw [hs2, allocate_of_hit h2, finishMaps_cache]
    rw [if_neg (by norm_num)]
  have htwo : ((1 : Int) + 1) = 2 := by norm_num
  have hl2 : lookupA k s2.cache = some ⟨n, 2⟩ := by
    rw [hcache2, hkey, lookupA_updateVal_self _ (by rw [h2]; rfl), htwo]
  have hcnt2 : countKey k s2.cache = 1 := by
    rw [hcache2, countKey_updateVal, hcount1]
  have hfree : (free s2 r1 i1).cache = updateVal k ⟨n, 2 - 1⟩ s2.cache := by
    rw [free_cache_of_found hl2, if_neg (by norm_num)]
  have hone : ((2 : Int) - 1) = 1 := by norm_num
  have hl3 : lookupA k (free s2 r1 i1).cache = some ⟨n, 1⟩ := by
    rw [hfree, lookupA_updateVal_self _ (by rw [hl2]; rfl), hone]
  refine ⟨hl2, hcnt2, hl3, ?_⟩
  unfold has_cache
  rw [← hkey, hl3]
  rfl

/-- Witness for C7 at a concrete input: `reqA` and `reqD` are distinct
usages sharing content key 11; after both allocations the single entry
has refcount 2. -/
theorem C7_witness :
    (allocate (ECM.init 10) reqA 0).2 = true ∧
    lookupA 11 ((allocate ((allocate (ECM.init 10) reqA 0).1) reqD 0).1).cache
      = some ⟨5, 2⟩ := by
  refine ⟨by decide, ?_⟩
  exact (C7_sharing (ECM.init 10) reqA reqD 0 0 rfl (by decide) (by decide) (by decide)).1

theorem moveToFront_eq {α : Type} {k : Nat} {l : List (Nat × α)} {v : α}
    (h : lookupA k l = some v) : moveToFront k l = (k, v) :: eraseKey k l := by
  unfold moveToFront
  rw [h]

/-- `free` on an entry with refcount 1 idles it and moves it to the front
of the cache order. -/
theorem free_cache_idles {s : ECM} {r : Request} {i : Nat} {c : Nat}
    (h : lookupA (r.mm_hash i) s.cache = some ⟨c, 1⟩) :
    (free s r i).cache = (r.mm_hash i, ⟨c, 0⟩) :: eraseKey (r.mm_hash i) s.cache := by
  rw [free_cache_of_found h, if_pos (by norm_num : ((⟨c, 1⟩ : CacheEntry).in_use - 1 = 0))]
  rw [moveToFront_eq (lookupA_updateVal_self _ (by rw [h]; rfl)), eraseKey_updateVal]
  norm_num

/-- One step of the eviction loop: an idle head entry that alone covers
the requirement is evicted and the loop stops. -/
theorem evictLoop_head_idle_stop {required : Int} {k c : Nat}
    {rest : List (Nat × CacheEntry)} {acc : Nat} {cache : Cache}
    {m : List (Nat × List Nat)}
    (hreq : required ≤ ((acc + c : Nat) : Int)) :
    evictLoop required ((k, ⟨c, 0⟩) :: rest) acc cache m
      = (acc + c, eraseKey k cache, eraseKey k m) := by
  simp only [evictLoop]
  simp [hreq]
  intro h
  exfalso
  push_cast at hreq
  omega

/-- Counterexample to claim C3 as stated: capacity 10 holds keys 11 and 12
(cost 5 each, keys idled in the order 11 then 12); allocating key 13
(cost 5) evicts key 12 — the entry idled second — and keeps key 11, the
opposite of least-recently-idled-first order. -/
theorem C3_counterexample :
    lookupA 11 (run 10 [Op.alloc reqA 0, Op.alloc reqB 0, Op.free reqA 0, Op.free reqB 0,
      Op.alloc reqC 0]).cache = some ⟨5, 0⟩ ∧
    lookupA 12 (run 10 [Op.alloc reqA 0, Op.alloc reqB 0, Op.free reqA 0, Op.free reqB 0,
      Op.alloc reqC 0]).cache = none := by
  refine ⟨by decide, by decide⟩

/-- Claim C3 (amended): eviction follows most-recently-idled-first order:
`free` on a refcount 1-to-0 transition moves the entry to the front of
the eviction order (first candidate), so with idle entries A (idled
first) and B (idled second) of equal cost, an allocate needing one
entry's worth of space evicts B and keeps A. -/
theorem C3_mru_idled_evicted_first (s : ECM) (ra rb rc : Request)
    (ia ib ic : Nat) (c : Nat)
    (hA : lookupA (ra.mm_hash ia) s.cache = some ⟨c, 1⟩)
    (hB : lookupA (rb.mm_hash ib) s.cache = some ⟨c, 1⟩)
    (hAB : ra.mm_hash ia ≠ rb.mm_hash ib)
    (hC : lookupA (rc.mm_hash ic) s.cache = none)
    (h0 : 0 < requiredTokens s rc ic)
    (hle : requiredTokens s rc ic ≤ (c : Int)) :
    (free s ra ia).cache.head? = some (ra.mm_hash ia, ⟨c, 0⟩) ∧
    (free (free s ra ia) rb ib).cache.head? = some (rb.mm_hash ib, ⟨c, 0⟩) ∧
    (allocate (free (free s ra ia) rb ib) rc ic).2 = true ∧
    lookupA (rb.mm_hash ib)
      ((allocate (free (free s ra ia) rb ib) rc ic).1).cache = none ∧
    lookupA (ra.mm_hash ia)
      ((allocate (free (free s ra ia) rb ib) rc ic).1).cache = some ⟨c, 0⟩ := by
  set kA := ra.mm_hash ia with hkA
  set kB := rb.mm_hash ib with hkB
  set kC := rc.mm_hash ic with hkC
  have hCA : kC ≠ kA := by
    intro hh
    rw [hh, hA] at hC
    exact Option.noConfusion hC
  have hCB : kC ≠ kB := by
    intro hh
    rw [hh, hB] at hC
    exact Option.noConfusion hC
  set s1 := free s ra ia with hs1
  have hc1 : s1.cache = (kA, ⟨c, 0⟩) :: eraseKey kA s.cache := free_cache_idles hA
  have hB1 : lookupA kB s1.cache = some ⟨c, 1⟩ := by
    rw [hc1]
    show (if kA = kB then some (⟨c, 0⟩ : CacheEntry) else lookupA kB (eraseKey kA s.cache))
      = some ⟨c, 1⟩
    rw [if_neg hAB, lookupA_eraseKey_ne (Ne.symm hAB)]
    exact hB
  set s2 := free s1 rb ib with hs2
  have hc2 : s2.cache =
      (kB, ⟨c, 0⟩) :: (kA, ⟨c, 0⟩) :: eraseKey kB (eraseKey kA s.cache) := by
    have := free_cache_idles hB1
    rw [hc1] at this
    rw [this]
    show (kB, (⟨c, 0⟩ : CacheEntry)) ::
        (if kA = kB then eraseKey kB (eraseKey kA s.cache)
          else (kA, (⟨c, 0⟩ : CacheEntry)) :: eraseKey kB (eraseKey kA s.cache)) = _
    rw [if_neg hAB]
  have hC2 : lookupA kC s2.cache = none := by
    rw [hc2]
    show (if kB = kC then some (⟨c, 0⟩ : CacheEntry)
      else if kA = kC then some (⟨c, 0⟩ : CacheEntry)
      else lookupA kC (eraseKey kB (eraseKey kA s.cache))) = none
    rw [if_neg (Ne.symm hCB), if_neg (Ne.symm hCA),
      lookupA_eraseKey_ne hCB, lookupA_eraseKey_ne hCA]
    exact hC
  have hused : s2.num_used_tokens = s.num_used_tokens := by
    rw [hs2, free_used, hs1, free_used]
  have hsize : s2.cache_size = s.cache_size := by
    rw [hs2, free_size, hs1, free_size]
  have hreq2 : requiredTokens s2 rc ic = requiredTokens s rc ic := by
    unfold requiredTokens
    rw [hused, hsize]
  have herase : eraseKey kB ((kB, (⟨c, 0⟩ : CacheEntry)) ::
      (kA, (⟨c, 0⟩ : CacheEntry)) :: eraseKey kB (eraseKey kA s.cache)) =
      (kA, (⟨c, 0⟩ : CacheEntry)) :: eraseKey kB (eraseKey kA s.cache) := by
    show (if kB = kB then eraseKey kB ((kA, (⟨c, 0⟩ : CacheEntry)) ::
        eraseKey kB (eraseKey kA s.cache)) else _) = _
    rw [if_pos rfl]
    show (if kA = kB then eraseKey kB (eraseKey kB (eraseKey kA s.cache))
      else (kA, (⟨c, 0⟩ : CacheEntry)) :: eraseKey kB (eraseKey kB (eraseKey kA s.cache))) = _
    rw [if_neg hAB, eraseKey_idem]
  have hev : evictResult s2 rc ic =
      (0 + c,
       (kA, (⟨c, 0⟩ : CacheEntry)) :: eraseKey kB (eraseKey kA s.cache),
       eraseKey kB s2.mm_hash_to_input_ids) := by
    unfold evictResult
    rw [hreq2, hc2]
    rw [evictLoop_head_idle_stop (by push_cast; omega)]
    rw [herase]
  have h02 : 0 < requiredTokens s2 rc ic := by rw [hreq2]; exact h0
  have hfail : ¬ ((evictResult s2 rc ic).1 : Int) < requiredTokens s2 rc ic := by
    rw [hev, hreq2]
    push_cast
    omega
  have hcache3 : ((allocate s2 rc ic).1).cache =
      ((kA, (⟨c, 0⟩ : CacheEntry)) :: eraseKey kB (eraseKey kA s.cache))
        ++ [(kC, ⟨rc.num_encoder_tokens ic, 1⟩)] := by
    rw [allocate_of_miss_evict hC2 h02 hfail, finishMaps_cache]
    rw [hev]
  refine ⟨by rw [hc1]; rfl, by rw [hc2]; rfl, ?_, ?_, ?_⟩
  · rw [allocate_of_miss_evict hC2 h02 hfail]
  · rw [hcache3]
    show (if kA = kB then some (⟨c, 0⟩ : CacheEntry)
      else lookupA kB (eraseKey kB (eraseKey kA s.cache) ++ [(kC, ⟨rc.num_encoder_tokens ic, 1⟩)])) = none
    rw [if_neg hAB, lookupA_append_none (lookupA_eraseKey_self kB (eraseKey kA s.cache))]
    show (if kC = kB then some (⟨rc.num_encoder_tokens ic, 1⟩ : CacheEntry) else none) = none
    rw [if_neg hCB]
  · rw [hcache3]
    show (if kA = kA then some (⟨c, 0⟩ : CacheEntry) else _) = some ⟨c, 0⟩
    rw [if_pos rfl]

/-- Witness for C3's amended statement at a concrete input: keys 11 and 12
are active with refcount 1 and cost 5 in a full cache of capacity 10;
after freeing 11 then 12, an allocate of key 13 (cost 5) evicts key 12. -/
theorem C3_witness :
    lookupA 11 (run 10 [Op.alloc reqA 0, Op.alloc reqB 0]).cache = some ⟨5, 1⟩ ∧
    lookupA 12 (run 10 [Op.alloc reqA 0, Op.alloc reqB 0]).cache = some ⟨5, 1⟩ ∧
    0 < requiredTokens (run 10 [Op.alloc reqA 0, Op.alloc reqB 0]) reqC 0 ∧
    lookupA 12 ((allocate (free (free (run 10 [Op.alloc reqA 0, Op.alloc reqB 0]) reqA 0)
      reqB 0) reqC 0).1).cache = none := by
  refine ⟨by decide, by decide, by decide, ?_⟩
  exact (C3_mru_idled_evicted_first (run 10 [Op.alloc reqA 0, Op.alloc reqB 0])
    reqA reqB reqC 0 0 0 5 (by decide) (by decide) (by decide) (by decide)
    (by decide) (by decide)).2.2.2.1

theorem idleHashes_nil_of_active {l : Cache} (h : ∀ p ∈ l, p.2.in_use ≠ 0) :
    idleHashes l = [] := by
  induction l with
  | nil => rfl
  | cons p rest ih =>
    have hp := h p (List.mem_cons_self _ _)
    simp only [idleHashes, if_neg hp]
    exact ih (fun q hq => h q (List.mem_cons_of_mem _ hq))

/-- Counterexample to claim C6 as stated: after freeing the usages of keys
11, 12, 13 in that order, `get_freed_ids` returns the content keys of the
idle entries, most recently idled first (`[13, 12, 11]`), not the
`(request_id, input_id)` pairs in call order; and since it mutates
nothing, an immediate second call returns the same non-empty sequence
instead of an empty one. -/
theorem C6_counterexample :
    get_freed_ids (run 15 [Op.alloc reqA 0, Op.alloc reqB 0, Op.alloc reqC 0,
      Op.free reqA 0, Op.free reqB 0, Op.free reqC 0]) = [13, 12, 11] ∧
    get_freed_ids (step (run 15 [Op.alloc reqA 0, Op.alloc reqB 0, Op.alloc reqC 0,
      Op.free reqA 0, Op.free reqB 0, Op.free reqC 0]) Op.getFreed) = [13, 12, 11] ∧
    get_freed_ids (step (run 15 [Op.alloc reqA 0, Op.alloc reqB 0, Op.alloc reqC 0,
      Op.free reqA 0, Op.free reqB 0, Op.free reqC 0]) Op.getFreed) ≠ [] := by
  refine ⟨by decide, by decide, by decide⟩

/-- Claim C6 (amended): the effective class keeps no freed queue; `free`
records nothing, and `get_freed_ids` returns a snapshot of the content
keys of the currently idle entries in cache order (most recently idled
first) without draining anything: freeing usages P1, P2, P3 with distinct
keys in a cache whose other entries are all active makes `get_freed_ids`
return the keys of P3, P2, P1 in that order, and an immediate second call
returns the same sequence. -/
theorem C6_get_freed_ids_snapshot (s : ECM) (r1 r2 r3 : Request)
    (i1 i2 i3 : Nat) (c1 c2 c3 : Nat)
    (h1 : lookupA (r1.mm_hash i1) s.cache = some ⟨c1, 1⟩)
    (h2 : lookupA (r2.mm_hash i2) s.cache = some ⟨c2, 1⟩)
    (h3 : lookupA (r3.mm_hash i3) s.cache = some ⟨c3, 1⟩)
    (h12 : r1.mm_hash i1 ≠ r2.mm_hash i2)
    (h13 : r1.mm_hash i1 ≠ r3.mm_hash i3)
    (h23 : r2.mm_hash i2 ≠ r3.mm_hash i3)
    (hact : ∀ p ∈ s.cache, p.2.in_use ≠ 0) :
    get_freed_ids (free (free (free s r1 i1) r2 i2) r3 i3)
      = [r3.mm_hash i3, r2.mm_hash i2, r1.mm_hash i1] ∧
    get_freed_ids (step (free (free (free s r1 i1) r2 i2) r3 i3) Op.getFreed)
      = [r3.mm_hash i3, r2.mm_hash i2, r1.mm_hash i1] := by
  set k1 := r1.mm_hash i1 with hk1
  set k2 := r2.mm_hash i2 with hk2
  set k3 := r3.mm_hash i3 with hk3
  set s1 := free s r1 i1 with hs1
  have hc1 : s1.cache = (k1, ⟨c1, 0⟩) :: eraseKey k1 s.cache := free_cache_idles h1
  have hB1 : lookupA k2 s1.cache = some ⟨c2, 1⟩ := by
    rw [hc1]
    show (if k1 = k2 then some (⟨c1, 0⟩ : CacheEntry)
      else lookupA k2 (eraseKey k1 s.cache)) = some ⟨c2, 1⟩
    rw [if_neg h12, lookupA_eraseKey_ne (Ne.symm h12)]
    exact h2
  set s2 := free s1 r2 i2 with hs2
  have hc2 : s2.cache =
      (k2, ⟨c2, 0⟩) :: (k1, ⟨c1, 0⟩) :: eraseKey k2 (eraseKey k1 s.cache) := by
    have := free_cache_idles hB1
    rw [hc1] at this
    rw [this]
    show (k2, (⟨c2, 0⟩ : CacheEntry)) ::
        (if k1 = k2 then eraseKey k2 (eraseKey k1 s.cache)
          else (k1, (⟨c1, 0⟩ : CacheEntry)) :: eraseKey k2 (eraseKey k1 s.cache)) = _
    rw [if_neg h12]
  have hB2 : lookupA k3 s2.cache = some ⟨c3, 1⟩ := by
    rw [hc2]
    show (if k2 = k3 then some (⟨c2, 0⟩ : CacheEntry)
      else if k1 = k3 then some (⟨c1, 0⟩ : CacheEntry)
      else lookupA k3 (eraseKey k2 (eraseKey k1 s.cache))) = some ⟨c3, 1⟩
    rw [if_neg h23, if_neg h13, lookupA_eraseKey_ne (Ne.symm h23),
      lookupA_eraseKey_ne (Ne.symm h13)]
    exact h3
  set s3 := free s2 r3 i3 with hs3
  have hc3 : s3.cache =
      (k3, ⟨c3, 0⟩) :: (k2, ⟨c2, 0⟩) :: (k1, ⟨c1, 0⟩) ::
        eraseKey k3 (eraseKey k2 (eraseKey k1 s.cache)) := by
    have := free_cache_idles hB2
    rw [hc2] at this
    rw [this]
    show (k3, (⟨c3, 0⟩ : CacheEntry)) ::
        (if k2 = k3 then _
          else (k2, (⟨c2, 0⟩ : CacheEntry)) ::
            (if k1 = k3 then eraseKey k3 (eraseKey k2 (eraseKey k1 s.cache))
              else (k1, (⟨c1, 0⟩ : CacheEntry)) ::
                eraseKey k3 (eraseKey k2 (eraseKey k1 s.cache)))) = _
    rw [if_neg h23, if_neg h13]
  have hrest : ∀ p ∈ eraseKey k3 (eraseKey k2 (eraseKey k1 s.cache)), p.2.in_use ≠ 0 :=
    fun p hp =>
      hact p (mem_of_mem_eraseKey (mem_of_mem_eraseKey (mem_of_mem_eraseKey hp)))
  have hmain : get_freed_ids s3 = [k3, k2, k1] := by
    unfold get_freed_ids
    rw [hc3]
    show (if ((⟨c3, 0⟩ : CacheEntry)).in_use = 0 then k3 :: idleHashes _ else idleHashes _)
      = [k3, k2, k1]
    rw [if_pos rfl]
    show k3 :: (if ((⟨c2, 0⟩ : CacheEntry)).in_use = 0
      then k2 :: idleHashes _ else idleHashes _) = [k3, k2, k1]
    rw [if_pos rfl]
    show k3 :: k2 :: (if ((⟨c1, 0⟩ : CacheEntry)).in_use = 0
      then k1 :: idleHashes _ else idleHashes _) = [k3, k2, k1]
    rw [if_pos rfl, idleHashes_nil_of_active hrest]
  exact ⟨hmain, hmain⟩

/-- Witness for C6's amended statement at a concrete input: keys 11, 12,
13 freed in that order give `get_freed_ids = [13, 12, 11]` twice. -/
theorem C6_witness :
    lookupA 11 (run 15 [Op.alloc reqA 0, Op.alloc reqB 0, Op.alloc reqC 0]).cache
      = some ⟨5, 1⟩ ∧
    get_freed_ids (free (free (free (run 15 [Op.alloc reqA 0, Op.alloc reqB 0,
      Op.alloc reqC 0]) reqA 0) reqB 0) reqC 0) = [13, 12, 11] := by
  refine ⟨by decide, ?_⟩
  exact (C6_get_freed_ids_snapshot (run 15 [Op.alloc reqA 0, Op.alloc reqB 0, Op.alloc reqC 0])
    reqA reqB reqC 0 0 0 5 5 5 (by decide) (by decide) (by decide)
    (by decide) (by decide) (by decide) (by decide)).1

section Refcount

/-- Signed contribution of one operation to the usage balance of key `K`:
`+1` for a successful allocate of `K`, `-1` for a free of `K`, `0`
otherwise. -/
def balStep (K : Nat) (s : ECM) : Op → Int
  | Op.alloc r i => if r.mm_hash i = K ∧ (allocate s r i).2 = true then 1 else 0
  | Op.free r i => if r.mm_hash i = K then -1 else 0
  | _ => 0

/-- Usage balance of key `K` accumulated along a run. -/
def balAux (K : Nat) : ECM → List Op → Int
  | _, [] => 0
  | s, op :: rest => balStep K s op + balAux K (step s op) rest

/-- The balance bounds the refcount of `K` from below (and is
non-positive when `K` is absent). -/
def RK (K : Nat) (s : ECM) (b : Int) : Prop :=
  (∀ e, lookupA K s.cache = some e → b ≤ e.in_use) ∧
  (lookupA K s.cache = none → b ≤ 0)

theorem free_lookup_self {s : ECM} {r : Request} {i : Nat} {entry : CacheEntry}
    (h : lookupA (r.mm_hash i) s.cache = some entry) :
    lookupA (r.mm_hash i) (free s r i).cache
      = some ⟨entry.num_tokens, entry.in_use - 1⟩ := by
  rw [free_cache_of_found h]
  by_cases hz : entry.in_use - 1 = 0
  · rw [if_pos hz, lookupA_moveToFront_self, lookupA_updateVal_self _ (by rw [h]; rfl)]
  · rw [if_neg hz, lookupA_updateVal_self _ (by rw [h]; rfl)]

theorem free_lookup_ne {s : ECM} {r : Request} {i : Nat} {k : Nat}
    (hk : k ≠ r.mm_hash i) :
    lookupA k (free s r i).cache = lookupA k s.cache := by
  cases h : lookupA (r.mm_hash i) s.cache with
  | none => rw [free_of_absent h]
  | some entry =>
    rw [free_cache_of_found h]
    by_cases hz : entry.in_use - 1 = 0
    · rw [if_pos hz, lookupA_moveToFront_ne hk, lookupA_updateVal_ne hk]
    · rw [if_neg hz, lookupA_updateVal_ne hk]

theorem allocate_hit_lookup_self {s : ECM} {r : Request} {i : Nat} {entry : CacheEntry}
    (h : lookupA (r.mm_hash i) s.cache = some entry) :
    lookupA (r.mm_hash i) ((allocate s r i).1).cache
      = some ⟨entry.num_tokens, entry.in_use + 1⟩ := by
  simp only [allocate_of_hit h, finishMaps_cache]
  by_cases hone : entry.in_use + 1 = 1
  · rw [if_pos hone, lookupA_moveToEnd_self, lookupA_updateVal_self _ (by rw [h]; rfl)]
  · rw [if_neg hone, lookupA_updateVal_self _ (by rw [h]; rfl)]

theorem allocate_hit_lookup_ne {s : ECM} {r : Request} {i : Nat} {k : Nat}
    {entry : CacheEntry} (hk : k ≠ r.mm_hash i)
    (h : lookupA (r.mm_hash i) s.cache = some entry) :
    lookupA k ((allocate s r i).1).cache = lookupA k s.cache := by
  simp only [allocate_of_hit h, finishMaps_cache]
  by_cases hone : entry.in_use + 1 = 1
  · rw [if_pos hone, lookupA_moveToEnd_ne hk, lookupA_updateVal_ne hk]
  · rw [if_neg hone, lookupA_updateVal_ne hk]

/-- For a key other than the allocated one, `allocate` either preserves
the binding or (when the entry was idle) evicts it. -/
theorem allocate_lookup_ne {s : ECM} {r : Request} {i : Nat} {K : Nat}
    (hne : K ≠ r.mm_hash i) (hnd : NodupKeys s.cache) :
    lookupA K ((allocate s r i).1).cache = lookupA K s.cache ∨
    (∃ e, lookupA K s.cache = some e ∧ e.in_use = 0 ∧
      lookupA K ((allocate s r i).1).cache = none) := by
  cases h : lookupA (r.mm_hash i) s.cache with
  | some entry => exact Or.inl (allocate_hit_lookup_ne hne h)
  | none =>
    have hsingle : lookupA K [(r.mm_hash i, (⟨r.num_encoder_tokens i, 1⟩ : CacheEntry))]
        = none := by
      show (if r.mm_hash i = K then some ((⟨r.num_encoder_tokens i, 1⟩ : CacheEntry))
        else lookupA K ([] : Cache)) = none
      rw [if_neg (fun hh => hne (Eq.symm hh))]
      rfl
    by_cases h0 : 0 < requiredTokens s r i
    · by_cases hfail : ((evictResult s r i).1 : Int) < requiredTokens s r i
      · cases hK : lookupA K s.cache with
        | none =>
          left
          simp only [allocate_of_miss_fail h h0 hfail]
          exact evictLoop_lookup_none hK
        | some e =>
          have hsnap : ∀ e', (K, e') ∈ s.cache → e' = e :=
            fun e' hm => Option.some.inj ((lookupA_of_mem_nodup hnd hm).symm.trans hK)
          have hcase : lookupA K (evictResult s r i).2.1 = some e ∨
              (e.in_use = 0 ∧ lookupA K (evictResult s r i).2.1 = none) :=
            evictLoop_lookup_cases hsnap hK
          rcases hcase with hkeep | ⟨hid, hnone⟩
          · left
            simp only [allocate_of_miss_fail h h0 hfail]
            exact hkeep
          · right
            refine ⟨e, rfl, hid, ?_⟩
            simp only [allocate_of_miss_fail h h0 hfail]
            exact hnone
      · cases hK : lookupA K s.cache with
        | none =>
          left
          simp only [allocate_of_miss_evict h h0 hfail, finishMaps_cache]
          have hnone2 : lookupA K (evictResult s r i).2.1 = none :=
            evictLoop_lookup_none hK
          rw [lookupA_append_none hnone2]
          exact hsingle
        | some e =>
          have hsnap : ∀ e', (K, e') ∈ s.cache → e' = e :=
            fun e' hm => Option.some.inj ((lookupA_of_mem_nodup hnd hm).symm.trans hK)
          have hcase : lookupA K (evictResult s r i).2.1 = some e ∨
              (e.in_use = 0 ∧ lookupA K (evictResult s r i).2.1 = none) :=
            evictLoop_lookup_cases hsnap hK
          rcases hcase with hkeep | ⟨hid, hnone⟩
          · left
            simp only [allocate_of_miss_evict h h0 hfail, finishMaps_cache]
            rw [lookupA_append_some hkeep]
          · right
            refine ⟨e, rfl, hid, ?_⟩
            simp only [allocate_of_miss_evict h h0 hfail, finishMaps_cache]
            rw [lookupA_append_none hnone]
            exact hsingle
    · left
      simp only [allocate_of_miss_fits h h0, finishMaps_cache]
      cases hK : lookupA K s.cache with
      | some e => rw [lookupA_append_some hK]
      | none =>
        rw [lookupA_append_none hK]
        exact hsingle

/-- Lookup of the allocated key after a successful miss. -/
theorem allocate_miss_ok_lookup {s : ECM} {r : Request} {i : Nat}
    (hmiss : lookupA (r.mm_hash i) s.cache = none)
    (hok : (allocate s r i).2 = true) :
    lookupA (r.mm_hash i) ((allocate s r i).1).cache
      = some ⟨r.num_encoder_tokens i, 1⟩ := by
  obtain ⟨c₀, hc, hc0⟩ := allocate_miss_ok_cache hmiss hok
  rw [hc, lookupA_append_none hc0]
  simp [lookupA]

theorem rk_step {K : Nat} {s : ECM} {b : Int} {op : Op}
    (hnd : NodupKeys s.cache) (hrk : RK K s b) :
    RK K (step s op) (b + balStep K s op) := by
  obtain ⟨hsome, hnone⟩ := hrk
  cases op with
  | canAlloc r i =>
    show RK K s (b + 0)
    rw [add_zero]
    exact ⟨hsome, hnone⟩
  | hasCache r i =>
    show RK K s (b + 0)
    rw [add_zero]
    exact ⟨hsome, hnone⟩
  | getFreed =>
    show RK K s (b + 0)
    rw [add_zero]
    exact ⟨hsome, hnone⟩
  | free r i =>
    show RK K (free s r i) _
    by_cases hK : r.mm_hash i = K
    · subst hK
      have hb : balStep (r.mm_hash i) s (Op.free r i) = -1 := by
        simp [balStep]
      rw [hb]
      cases h : lookupA (r.mm_hash i) s.cache with
      | none =>
        rw [free_of_absent h]
        refine ⟨fun e he => absurd (he.symm.trans h) (by simp), fun _ => ?_⟩
        have := hnone h
        omega
      | some entry =>
        have hl := free_lookup_self h
        refine ⟨fun e he => ?_, fun hn => absurd (hn.symm.trans hl) (by simp)⟩
        have he' : e = ⟨entry.num_tokens, entry.in_use - 1⟩ :=
          Option.some.inj (he.symm.trans hl)
        have := hsome entry h
        rw [he']
        show b + -1 ≤ entry.in_use - 1
        omega
    · have hb : balStep K s (Op.free r i) = 0 := by
        simp [balStep, hK]
      rw [hb]
      have hrw := free_lookup_ne (s := s) (r := r) (i := i)
        (k := K) (fun hh => hK hh.symm)
      refine ⟨fun e he => ?_, fun hn => ?_⟩
      · rw [hrw] at he
        have := hsome e he
        omega
      · rw [hrw] at hn
        have := hnone hn
        omega
  | alloc r i =>
    show RK K ((allocate s r i).1) _
    by_cases hK : r.mm_hash i = K
    · subst hK
      cases h : lookupA (r.mm_hash i) s.cache with
      | some entry =>
        have hsucc : (allocate s r i).2 = true := by rw [allocate_of_hit h]
        have hb : balStep (r.mm_hash i) s (Op.alloc r i) = 1 := by
          simp [balStep, hsucc]
        rw [hb]
        have hl := allocate_hit_lookup_self h
        refine ⟨fun e he => ?_, fun hn => absurd (hn.symm.trans hl) (by simp)⟩
        have he' : e = ⟨entry.num_tokens, entry.in_use + 1⟩ :=
          Option.some.inj (he.symm.trans hl)
        have := hsome entry h
        rw [he']
        show b + 1 ≤ entry.in_use + 1
        omega
      | none =>
        have hb0 := hnone h
        by_cases hsucc : (allocate s r i).2 = true
        · have hb : balStep (r.mm_hash i) s (Op.alloc r i) = 1 := by
            simp [balStep, hsucc]
          rw [hb]
          have hl := allocate_miss_ok_lookup h hsucc
          refine ⟨fun e he => ?_, fun hn => absurd (hn.symm.trans hl) (by simp)⟩
          have he' : e = ⟨r.num_encoder_tokens i, 1⟩ := Option.some.inj (he.symm.trans hl)
          rw [he']
          show b + 1 ≤ (1 : Int)
          omega
        · have hb : balStep (r.mm_hash i) s (Op.alloc r i) = 0 := by
            simp [balStep, hsucc]
          rw [hb]
          by_cases h0 : 0 < requiredTokens s r i
          · by_cases hfail : ((evictResult s r i).1 : Int) < requiredTokens s r i
            · have hl : lookupA (r.mm_hash i) ((allocate s r i).1).cache = none := by
                rw [allocate_of_miss_fail h h0 hfail]
                exact evictLoop_lookup_none h
              refine ⟨fun e he => absurd (he.symm.trans hl) (by simp), fun _ => ?_⟩
              omega
            · exact absurd (by rw [allocate_of_miss_evict h h0 hfail]) hsucc
          · exact absurd (by rw [allocate_of_miss_fits h h0]) hsucc
    · have hne : K ≠ r.mm_hash i := fun hh => hK hh.symm
      have hb : balStep K s (Op.alloc r i) = 0 := by
        simp [balStep, hK]
      rw [hb]
      rcases allocate_lookup_ne hne hnd with hrw | ⟨e, hKe, hid, hnone'⟩
      · refine ⟨fun e he => ?_, fun hn => ?_⟩
        · rw [hrw] at he
          have := hsome e he
          omega
        · rw [hrw] at hn
          have := hnone hn
          omega
      · refine ⟨fun e' he' => absurd (he'.symm.trans hnone') (by simp), fun _ => ?_⟩
        have := hsome e hKe
        omega

theorem rk_foldl {K : Nat} (p : List Op) :
    ∀ (s : ECM) (b : Int), NodupKeys s.cache → RK K s b →
      RK K (p.foldl step s) (b + balAux K s p) := by
  induction p with
  | nil =>
    intro s b _ hrk
    obtain ⟨h1, h2⟩ := hrk
    exact ⟨fun e he => by have := h1 e he; simp [balAux]; omega,
      fun hn => by have := h2 hn; simp [balAux]; omega⟩
  | cons op rest ih =>
    intro s b hnd hrk
    have h1 := ih (step s op) (b + balStep K s op) (step_nodup op hnd) (rk_step hnd hrk)
    show RK K _ (b + (balStep K s op + balAux K (step s op) rest))
    rw [← add_assoc]
    exact h1

theorem foldl_replicate_alloc {r : Request} {i : Nat} {n : Nat} (j : Nat) :
    ∀ (s : ECM) (m : Int), lookupA (r.mm_hash i) s.cache = some ⟨n, m⟩ →
      lookupA (r.mm_hash i) (((List.replicate j (Op.alloc r i)).foldl step s)).cache
        = some ⟨n, m + j⟩ := by
  induction j with
  | zero =>
    intro s m h
    simpa using h
  | succ j ih =>
    intro s m h
    rw [List.replicate_succ, List.foldl_cons]
    have hstep : lookupA (r.mm_hash i) ((step s (Op.alloc r i))).cache
        = some ⟨n, m + 1⟩ := allocate_hit_lookup_self h
    have := ih (step s (Op.alloc r i)) (m + 1) hstep
    rw [this]
    congr 2
    push_cast
    ring

theorem foldl_replicate_free {r : Request} {i : Nat} {n : Nat} (j : Nat) :
    ∀ (s : ECM) (m : Int), lookupA (r.mm_hash i) s.cache = some ⟨n, m⟩ →
      lookupA (r.mm_hash i) (((List.replicate j (Op.free r i)).foldl step s)).cache
        = some ⟨n, m - j⟩ := by
  induction j with
  | zero =>
    intro s m h
    simpa using h
  | succ j ih =>
    intro s m h
    rw [List.replicate_succ, List.foldl_cons]
    have hstep : lookupA (r.mm_hash i) ((step s (Op.free r i))).cache
        = some ⟨n, m - 1⟩ := free_lookup_self h
    have := ih (step s (Op.free r i)) (m - 1) hstep
    rw [this]
    congr 2
    push_cast
    ring

end Refcount

/-- Counterexample to claim C8 as stated: allocating key 11 once and then
freeing it twice drives the entry's refcount to −1 — the second free finds
the key still cached (the idle entry was never evicted) and decrements
unconditionally. -/
theorem C8_counterexample :
    lookupA 11 (run 10 [Op.alloc reqA 0, Op.free reqA 0, Op.free reqA 0]).cache
      = some ⟨5, -1⟩ ∧
    ((⟨5, -1⟩ : CacheEntry)).in_use < 0 := by
  refine ⟨by decide, by decide⟩

/-- Claim C8 (amended): the refcount of a key never goes below 0 along any
run in which, at every point, the frees of that key do not outnumber its
successful allocates (double-free of a still-cached idle entry is excluded
— it drives the count to −1); and a sequence of n allocates for one key
followed by exactly n frees leaves the entry present and idle
(refcount 0), never destroyed by `free`. -/
theorem C8_refcount_bounds (cap : Nat) (K : Nat) (ops : List Op)
    (hbal : ∀ p q, ops = p ++ q → 0 ≤ balAux K (ECM.init cap) p) :
    (∀ p q, ops = p ++ q → ∀ e, lookupA K (run cap p).cache = some e →
      0 ≤ e.in_use) ∧
    (∀ (r : Request) (i nn : Nat), r.mm_hash i = K →
      r.num_encoder_tokens i ≤ cap → 0 < nn →
      lookupA K (run cap (List.replicate nn (Op.alloc r i)
          ++ List.replicate nn (Op.free r i))).cache
        = some ⟨r.num_encoder_tokens i, 0⟩) := by
  constructor
  · intro p q hpq e he
    have hinit : RK K (ECM.init cap) 0 :=
      ⟨fun e' he' => absurd he' (by simp [ECM.init, lookupA]),
        fun _ => le_refl 0⟩
    have hrun := rk_foldl p (ECM.init cap) 0
      (by simp [ECM.init, NodupKeys, keysOf]) hinit
    have hge := hbal p q hpq
    have := hrun.1 e he
    omega
  · intro r i nn hKr hcap hpos
    subst hKr
    have hmiss : lookupA (r.mm_hash i) (ECM.init cap).cache = none := rfl
    have hfit : ¬ 0 < requiredTokens (ECM.init cap) r i := by
      unfold requiredTokens
      show ¬ 0 < (r.num_encoder_tokens i : Int) - ((cap : Int) - 0)
      omega
    have hok : (allocate (ECM.init cap) r i).2 = true := by
      rw [allocate_of_miss_fits hmiss hfit]
    have h1 : lookupA (r.mm_hash i) ((step (ECM.init cap) (Op.alloc r i))).cache
        = some ⟨r.num_encoder_tokens i, 1⟩ := allocate_miss_ok_lookup hmiss hok
    obtain ⟨m, rfl⟩ : ∃ m, nn = m + 1 := ⟨nn - 1, by omega⟩
    unfold run
    rw [List.foldl_append, List.replicate_succ, List.foldl_cons]
    have ha := foldl_replicate_alloc m (step (ECM.init cap) (Op.alloc r i)) 1 h1
    have hf := foldl_replicate_free (m + 1) _ (1 + (m : Int)) ha
    rw [hf]
    congr 2
    push_cast
    ring

/-- Witness for C8 at a concrete input: the empty run satisfies the
balance hypothesis, and two allocates of key 11 followed by two frees
leave the entry present with refcount 0. -/
theorem C8_witness :
    (∀ p q, ([] : List Op) = p ++ q → 0 ≤ balAux 11 (ECM.init 10) p) ∧
    lookupA 11 (run 10 (List.replicate 2 (Op.alloc reqA 0)
        ++ List.replicate 2 (Op.free reqA 0))).cache = some ⟨5, 0⟩ := by
  have hbal : ∀ p q, ([] : List Op) = p ++ q → 0 ≤ balAux 11 (ECM.init 10) p := by
    intro p q h
    have hp : p = [] := by
      cases p with
      | nil => rfl
      | cons a t => exact absurd h (by simp)
    subst hp
    show (0 : Int) ≤ 0
    omega
  exact ⟨hbal, (C8_refcount_bounds 10 11 [] hbal).2 reqA 0 2 rfl (by decide) (by decide)⟩

end EncoderCache

namespace Primary

open EncoderCache (Request lookupA eraseKey updateVal setAdd setDiscard
  lookupA_append_none lookupA_append_some lookupA_updateVal_self lookupA_updateVal_ne)

/-- State of the primary module's `EncoderCacheManager`
(`encoder_cache_manager.py`).  `__init__` sets `cache_size`, `cached` and
`freed` but never defines `num_free_slots`; an attribute that was never
assigned is embedded as `Option Int` holding `none`, and reading it raises
`AttributeError`, embedded as `Except.error ()`.  `cached` maps a request
id to the set of its input ids, as `allocate` uses it. -/
structure PState where
  cache_size : Nat
  num_free_slots : Option Int
  cached : List (Nat × List Nat)
  freed : List (Nat × Nat)
deriving DecidableEq

/-- `__init__(cache_size)` of the primary module. -/
def pinit (cap : Nat) : PState :=
  { cache_size := cap
    num_free_slots := none
    cached := []
    freed := [] }

/-- `has_cache` of the primary module. -/
def has_cache (s : PState) (r : Request) (i : Nat) : Bool :=
  match lookupA r.request_id s.cached with
  | some ids => ids.contains i
  | none => false

/-- `can_allocate` of the primary module: reads `self.num_free_slots`,
which raises `AttributeError` when the attribute was never assigned. -/
def can_allocate (s : PState) (r : Request) (i : Nat) : Except Unit Bool :=
  match s.num_free_slots with
  | none => Except.error ()
  | some f => Except.ok (decide ((r.num_encoder_tokens i : Int) ≤ f))

/-- `allocate` of the primary module: inserts `(request_id, input_id)`
into `cached`, then executes `self.num_free_slots -= ...`, whose read
raises `AttributeError` when the attribute is absent — after the insertion
already happened. -/
def allocate (s : PState) (r : Request) (i : Nat) : PState × Except Unit Unit :=
  let req_id := r.request_id
  let cached0 :=
    match lookupA req_id s.cached with
    | none => s.cached ++ [(req_id, [])]
    | some _ => s.cached
  let cached1 :=
    match lookupA req_id cached0 with
    | some ids => updateVal req_id (setAdd i ids) cached0
    | none => cached0
  let s1 : PState := { s with cached := cached1 }
  match s1.num_free_slots with
  | none => (s1, Except.error ())
  | some f =>
    ({ s1 with num_free_slots := some (f - (r.num_encoder_tokens i : Int)) },
      Except.ok ())

/-- `free` of the primary module: early return for an unknown request id;
otherwise mutates `cached` and then hits the `num_free_slots` read. -/
def free (s : PState) (r : Request) (i : Nat) : PState × Except Unit Unit :=
  let req_id := r.request_id
  match lookupA req_id s.cached with
  | none => (s, Except.ok ())
  | some ids =>
    let ids' := setDiscard i ids
    let cached1 :=
      if ids' = [] then eraseKey req_id s.cached
      else updateVal req_id ids' s.cached
    let s1 : PState := { s with cached := cached1 }
    match s1.num_free_slots with
    | none => (s1, Except.error ())
    | some f =>
      ({ s1 with
          num_free_slots := some (f + (r.num_encoder_tokens i : Int))
          freed := s1.freed ++ [(req_id, i)] },
        Except.ok ())

/-- `get_freed_ids` of the primary module: drains the `freed` list. -/
def get_freed_ids (s : PState) : List (Nat × Nat) × PState :=
  (s.freed, { s with freed := [] })

/-- One operation against the primary module's manager. -/
inductive POp where
  | alloc (r : Request) (i : Nat)
  | free (r : Request) (i : Nat)
  | canAlloc (r : Request) (i : Nat)
  | hasCache (r : Request) (i : Nat)
  | getFreed

/-- Effect of an operation on the primary state (exceptions propagate to
the caller; the state retains the mutations made before the raise). -/
def pstep (s : PState) : POp → PState
  | POp.alloc r i => (allocate s r i).1
  | POp.free r i => (free s r i).1
  | POp.canAlloc _ _ => s
  | POp.hasCache _ _ => s
  | POp.getFreed => (get_freed_ids s).2

/-- State of the primary manager after a sequence of operations. -/
def prun (cap : Nat) (ops : List POp) : PState :=
  ops.foldl pstep (pinit cap)

/-- No operation ever assigns `num_free_slots`: the attribute stays
absent in every reachable state. -/
theorem prun_num_free_slots_none (cap : Nat) (ops : List POp) :
    (prun cap ops).num_free_slots = none := by
  suffices h : ∀ (ops : List POp) (s : PState), s.num_free_slots = none →
      (ops.foldl pstep s).num_free_slots = none from
    h ops (pinit cap) rfl
  intro ops
  induction ops with
  | nil => exact fun s h => h
  | cons op rest ih =>
    intro s h
    apply ih
    cases op with
    | alloc r i =>
      show ((allocate s r i).1).num_free_slots = none
      unfold allocate
      dsimp only
      rw [h]
    | free r i =>
      show ((free s r i).1).num_free_slots = none
      unfold free
      dsimp only
      cases hl : lookupA r.request_id s.cached with
      | none => exact h
      | some ids =>
        rw [h]
    | canAlloc r i => exact h
    | hasCache r i => exact h
    | getFreed => exact h

theorem mem_setAdd_self (x : Nat) (s : List Nat) : x ∈ setAdd x s := by
  unfold EncoderCache.setAdd
  by_cases h : x ∈ s
  · rw [if_pos h]
    exact h
  · rw [if_neg h]
    simp

/-- Claim C10: in the primary module `__init__` never defines
`num_free_slots` and no operation ever assigns it, so from every
reachable state `can_allocate` raises `AttributeError`; `allocate` also
raises `AttributeError`, but only after it has already inserted the
`(request_id, input_id)` record into the `cached` map — no admission
check or allocation ever completes through this module. -/
theorem C10_primary_attribute_error (cap : Nat) (ops : List POp)
    (r : Request) (i : Nat) :
    can_allocate (prun cap ops) r i = Except.error () ∧
    (allocate (prun cap ops) r i).2 = Except.error () ∧
    (∃ ids, lookupA r.request_id ((allocate (prun cap ops) r i).1).cached = some ids ∧
      i ∈ ids) := by
  have hns := prun_num_free_slots_none cap ops
  set s := prun cap ops with hs
  refine ⟨?_, ?_, ?_⟩
  · unfold can_allocate
    rw [hns]
  · unfold allocate
    dsimp only
    rw [hns]
  · unfold allocate
    dsimp only
    rw [hns]
    dsimp only
    cases hl : lookupA r.request_id s.cached with
    | none =>
      dsimp only
      have h0 : lookupA r.request_id (s.cached ++ [(r.request_id, ([] : List Nat))])
          = some [] := by
        rw [lookupA_append_none hl]
        show (if r.request_id = r.request_id then some ([] : List Nat) else _) = some []
        rw [if_pos rfl]
      rw [h0]
      exact ⟨setAdd i [], lookupA_updateVal_self _ (by rw [h0]; rfl),
        mem_setAdd_self i []⟩
    | some ids =>
      dsimp only
      rw [hl]
      exact ⟨setAdd i ids, lookupA_updateVal_self _ (by rw [hl]; rfl),
        mem_setAdd_self i ids⟩

end Primary
